import Mathlib

/-!
Verification of the MineBoard engine (a Minesweeper core written in TypeScript).

The development shallowly embeds the two source files of the repository:

* `src/main.ts` — class `MineBoard` with two construction modes: a numeric
  target mine count (mines placed by a Fisher–Yates shuffle on the first
  click), and a fixed string layout (rows of whitespace-separated tokens,
  mines at the token given by `xTok`).
* `src/unnamed/part_000` — an earlier variant of `MineBoard` (namespace `P0`
  below) whose mines come from a per-position predicate (`randomer`) and
  whose win condition counts `totalSpaceCount`.

Positions are modelled as pairs of integers; the JS code uses template
strings of the shape x-y as record keys, and the key map is injective on the
integer pairs that ever occur.  The string-keyed record `slots` becomes an
association list with JS assignment semantics (`setSlot` overwrites an
existing key in place, otherwise appends).  A JS read of a field of a
missing slot throws a TypeError; the embedding surfaces those points as an
explicit failure flag or error value, and mutating methods return the board
value holding exactly the mutations performed before the failure point, the
way the thrown exception leaves the JS object.  `Math.random`-driven choices
are parameters: the Fisher–Yates index picks are an arbitrary function
`rj : Nat → Nat` (reduced mod the allowed range, so every realizable draw is
some `rj`), and the `part_000` mine predicate is an arbitrary
`randomer : Int → Int → Bool`.  The flood-fill `while` loop is embedded with
an explicit fuel that is proven sufficient (`touchingLoop_ok`), so the
fuelled function agrees with the JS loop wherever the latter terminates.
-/

deriving instance DecidableEq for Except

/-- The three values of the `state` field of a board. -/
inductive GameState where
  | playing
  | dead
  | win
deriving DecidableEq, Repr

/-- Per-position record `MineSlot` of `src/main.ts` (identical in `part_000`):
mine flag, neighbour-mine count (`nearbyMine`, initially 0), reveal flag
(initially false). -/
structure MineSlot where
  hasMine : Bool
  nearbyMine : Nat
  reveal : Bool
deriving DecidableEq, Repr

/-- `new MineSlot(hasMine)`. -/
def MineSlot.new (hasMine : Bool) : MineSlot :=
  { hasMine := hasMine, nearbyMine := 0, reveal := false }

/-- A grid position; the JS code writes it as the template string x-y. -/
abbrev Pos := Int × Int

/-- The string-keyed record `slots`, as an association list. -/
abbrev Slots := List (Pos × MineSlot)

/-- Reading `slots[p]`: `none` plays the role of JS `undefined`. -/
def getSlot (s : Slots) (p : Pos) : Option MineSlot :=
  (s.find? (fun e => e.1 == p)).map (fun e => e.2)

/-- Writing `slots[p] = v` with JS record semantics: an existing key is
updated in place, a new key is appended. -/
def setSlot (s : Slots) (p : Pos) (v : MineSlot) : Slots :=
  if s.any (fun e => e.1 == p) then
    s.map (fun e => if e.1 == p then (p, v) else e)
  else
    s ++ [(p, v)]

/-- The `deltaMap` constant: the 8 Moore-neighbourhood offsets in the order
the source lists them. -/
def deltaMap : List (Int × Int) :=
  [(-1, 1), (-1, 0), (-1, -1), (0, -1), (0, 1), (1, 1), (1, 0), (1, -1)]

/-- `isVaildPosition(x, y)` (sic) of both source files: the bounds check
against `width` and `height`. -/
def isVaildPosition (w h x y : Int) : Bool :=
  !(x < 0 || x ≥ w || y < 0 || y ≥ h)

/-- `nearByMine(i, j)`: counts the `deltaMap` offsets whose slot exists and
has a mine.  A missing slot contributes nothing (JS short-circuits on the
`this.slots[position] &&` guard, so no TypeError is possible here). -/
def nearByMine (s : Slots) (i j : Int) : Nat :=
  deltaMap.foldl
    (fun count d =>
      match getSlot s (i + d.1, j + d.2) with
      | some sl => if sl.hasMine then count + 1 else count
      | none => count)
    0

/-- Grid traversal order used by `initNearbyMine` of `main.ts`, the two
`initField` loops of `part_000`: outer loop `i < width`, inner `j < height`,
position `(i, j)`. -/
def gridXOuter (w h : Int) : List Pos :=
  (List.range w.toNat).flatMap
    (fun (i : Nat) => (List.range h.toNat).map (fun (j : Nat) => ((i : Int), (j : Int))))

/-- Grid traversal order used by the string-layout constructor of `main.ts`:
outer loop `y < height`, inner `x < width`, position `(x, y)`. -/
def gridYOuter (w h : Int) : List Pos :=
  (List.range h.toNat).flatMap
    (fun (yy : Nat) => (List.range w.toNat).map (fun (xx : Nat) => ((xx : Int), (yy : Int))))

/-- The assignment loop of `initNearbyMine`: for each listed position, read
the slot (a missing slot is the JS TypeError, reported as a `false` flag
together with the mutations made so far) and store `nearByMine` computed
from the current slots. -/
def initNearbyLoop (s : Slots) : List Pos → Slots × Bool
  | [] => (s, true)
  | p :: ps =>
    match getSlot s p with
    | none => (s, false)
    | some sl => initNearbyLoop (setSlot s p { sl with nearbyMine := nearByMine s p.1 p.2 }) ps

/-- `initNearbyMine()` of `main.ts` (and the second loop pair of
`part_000`'s `initField`): iterate `i < width` outer, `j < height` inner. -/
def initNearbyMine (w h : Int) (s : Slots) : Slots × Bool :=
  initNearbyLoop s (gridXOuter w h)

/-- Failure modes of the flood fill `touchingNoMine`. -/
inductive FloodErr where
  | mineAtStart
  | missingSlot
  | fuelOut
deriving DecidableEq, Repr

/-- The neighbour loop of the flood fill: for each offset in `ds`, skip
out-of-bounds neighbours, read the neighbour slot (missing slot = JS
TypeError), skip mined, revealed, already-collected or already-pending
neighbours, and push the rest on the stack (JS pushes at the array end and
pops from the end; the list head is the stack top). -/
def pushDeltas (w h : Int) (s : Slots) (result : List Pos) (i j : Int) :
    List (Int × Int) → List Pos → Except FloodErr (List Pos)
  | [], stack => .ok stack
  | d :: ds, stack =>
    if isVaildPosition w h (d.1 + i) (d.2 + j) = false then
      pushDeltas w h s result i j ds stack
    else
      match getSlot s (d.1 + i, d.2 + j) with
      | none => .error .missingSlot
      | some sl =>
        if sl.hasMine || sl.reveal
            || result.contains (d.1 + i, d.2 + j) || stack.contains (d.1 + i, d.2 + j) then
          pushDeltas w h s result i j ds stack
        else
          pushDeltas w h s result i j ds ((d.1 + i, d.2 + j) :: stack)

/-- The `while` loop of `touchingNoMine`, with explicit fuel (the source has
no fuel; `touchingLoop_ok` below proves the fuel passed by `touchingNoMine`
is never exhausted, so the embedding agrees with the JS loop).  Each
iteration pops the stack top, appends it to the result, reads its slot
(missing slot = JS TypeError), and expands its neighbours unless its
`nearbyMine` count is positive. -/
def touchingLoop (w h : Int) (s : Slots) : Nat → List Pos → List Pos → Except FloodErr (List Pos)
  | _, result, [] => .ok result
  | 0, _, _ :: _ => .error .fuelOut
  | fuel + 1, result, current :: rest =>
    match getSlot s current with
    | none => .error .missingSlot
    | some sl =>
      if sl.nearbyMine > 0 then
        touchingLoop w h s fuel (result ++ [current]) rest
      else
        match pushDeltas w h s (result ++ [current]) current.1 current.2 deltaMap rest with
        | .error e => .error e
        | .ok stack2 => touchingLoop w h s fuel (result ++ [current]) stack2

/-- `touchingNoMine(ox, oy)`: throws if the start cell has a mine (or is a
missing slot), otherwise runs the flood-fill loop seeded with the start
position. -/
def touchingNoMine (w h : Int) (s : Slots) (ox oy : Int) : Except FloodErr (List Pos) :=
  match getSlot s (ox, oy) with
  | none => .error .missingSlot
  | some sl =>
    if sl.hasMine then .error .mineAtStart
    else touchingLoop w h s (2 * (w.toNat * h.toNat) + 1) [] [(ox, oy)]

/-- One reveal event `{position, nearbyMine}` as returned by `click`. -/
structure RevealEvent where
  position : Pos
  nearbyMine : Nat
deriving DecidableEq, Repr

/-- The `reveals = this.touchingNoMine(x, y).map(...)` body of `click`:
sets `reveal = true` on each listed slot, increments `revealCount`, and
collects the events in order.  A missing slot (JS TypeError) stops the loop
with a `false` flag, keeping the mutations made so far. -/
def revealLoop : Slots → Int → List Pos → List RevealEvent → Slots × Int × List RevealEvent × Bool
  | s, rc, [], acc => (s, rc, acc, true)
  | s, rc, p :: ps, acc =>
    match getSlot s p with
    | none => (s, rc, acc, false)
    | some sl =>
      revealLoop (setSlot s p { sl with reveal := true }) (rc + 1) ps
        (acc ++ [{ position := p, nearbyMine := sl.nearbyMine }])

/-- The value returned by a successful `click`. -/
structure ClickResult where
  state : GameState
  reveals : List RevealEvent
deriving DecidableEq, Repr

/-- Failure modes of `click`. -/
inductive ClickError where
  | outOfBounds
  | mineAtStart
  | missingSlot
  | fuelOut
deriving DecidableEq, Repr

/-- Conversion of a flood-fill failure into a click failure. -/
def ClickError.ofFlood : FloodErr → ClickError
  | .mineAtStart => .mineAtStart
  | .missingSlot => .missingSlot
  | .fuelOut => .fuelOut

/-- The `MineBoard` class of `src/main.ts`: `slots`, `mineCount`, `state`,
`revealCount`, `width`, `height`, `fieldInited`. -/
structure MineBoard where
  slots : Slots
  mineCount : Int
  state : GameState
  revealCount : Int
  width : Int
  height : Int
  fieldInited : Bool
deriving DecidableEq, Repr

/-- The construction failure of `main.ts` (`throw Error("Too many mines")`). -/
inductive ConstructError where
  | tooManyMines
deriving DecidableEq, Repr

/-- The numeric-mine-count constructor branch of `main.ts`: record the
metadata, throw iff `mineCount >= width * height`, allocate no slots. -/
def mkNumericBoard (w h mc : Int) : Except ConstructError MineBoard :=
  if mc ≥ w * h then .error .tooManyMines
  else
    .ok { slots := [], mineCount := mc, state := .playing, revealCount := 0,
          width := w, height := h, fieldInited := false }

/-- The mine token of a string layout. -/
def xTok : String := "x"

/-- The JS `undefined` stand-in when a layout row is too short: any token
different from `xTok` behaves identically here, since the constructor only
compares the token with `xTok`. -/
def emptyTok : String := ""

/-- `rows[y][x] === "x"` for a tokenised layout. -/
def layoutHasMine (rows : List (List String)) (p : Pos) : Bool :=
  (rows.getD p.2.toNat []).getD p.1.toNat emptyTok == xTok

/-- The string-layout constructor branch of `main.ts`, taking the layout
already split into rows of whitespace-separated tokens (the JS code derives
`rows` by `trim().split("\n")` and per-row `trim().split(/\s+/)`).  The
`width` and `height` constructor arguments are ignored by this branch, as in
the source; `width` becomes the first row's token count, `height` the row
count, and the double loop (`y` outer, `x` inner) creates every grid slot
and counts the mine tokens.  The flag is `initNearbyMine`'s success flag. -/
def mkLayoutBoard (_wArg _hArg : Int) (rows : List (List String)) : MineBoard × Bool :=
  let bw : Int := (rows.headD []).length
  let bh : Int := rows.length
  let built := (gridYOuter bw bh).foldl
    (fun (acc : Slots × Int) p =>
      (setSlot acc.1 p (MineSlot.new (layoutHasMine rows p)),
       if layoutHasMine rows p then acc.2 + 1 else acc.2))
    ([], 0)
  let nb := initNearbyMine bw bh built.1
  ({ slots := nb.1, mineCount := built.2, state := .playing, revealCount := 0,
     width := bw, height := bh, fieldInited := true }, nb.2)

/-- Swap of two list entries, used for the Fisher–Yates shuffle.  Both
indices are always in range at the call sites. -/
def listSwap (l : List Pos) (i j : Nat) : List Pos :=
  match l.get? i, l.get? j with
  | some a, some b => (l.set i b).set j a
  | _, _ => l

/-- The Fisher–Yates loop of `initField` in `main.ts`: `i` runs from
`positions.length - 1` down to `1`, and `j = Math.floor(Math.random()*(i+1))`
is an arbitrary draw in `[0, i]`, modelled as `rj i % (i + 1)` for an
arbitrary `rj : Nat → Nat` (every realizable draw sequence is some `rj`). -/
def fyLoop (rj : Nat → Nat) : List Pos → Nat → List Pos
  | l, 0 => l
  | l, k + 1 => fyLoop rj (listSwap l (k + 1) (rj (k + 1) % (k + 2))) k

/-- The whole shuffle: run the loop from index `length - 1` downwards. -/
def fyShuffle (rj : Nat → Nat) (l : List Pos) : List Pos :=
  fyLoop rj l (l.length - 1)

/-- The candidate-position array of `initField` in `main.ts`:
`Array.from({length: width*height}, (_, index) =>
  Math.floor(index / width)-(index % height))`.
Note the source's mixed use of `width` in the division and `height` in the
modulus; `Int` division and modulus agree with the JS operations for the
non-negative indices and positive dimensions that occur. -/
def genPositions (w h : Int) : List Pos :=
  (List.range (w * h).toNat).map (fun (idx : Nat) => (((idx : Int) / w, (idx : Int) % h) : Pos))

/-- `initField(x, y)` of `main.ts`: a no-op once `fieldInited` is set;
otherwise build the candidate positions, drop the clicked position, shuffle,
append the clicked position at the end, give the first `mineCount` positions
of the resulting order a mine, and run `initNearbyMine` (whose missing-slot
TypeError is the `false` flag). -/
def initFieldB (b : MineBoard) (x y : Int) (rj : Nat → Nat) : MineBoard × Bool :=
  if b.fieldInited then (b, true)
  else
    let clickPosition : Pos := (x, y)
    let positions0 := (genPositions b.width b.height).filter (fun p => p != clickPosition)
    let positions1 := fyShuffle rj positions0
    let positions2 := positions1 ++ [clickPosition]
    let slots := positions2.enum.foldl
      (fun s e => setSlot s e.2 (MineSlot.new (decide ((e.1 : Int) < b.mineCount))))
      b.slots
    let nb := initNearbyMine b.width b.height slots
    ({ b with slots := nb.1, fieldInited := true }, nb.2)

/-- `click(x, y)` of `main.ts`.  The returned board is the value of `this`
after the call, including the case where the JS method throws (the error is
returned alongside the mutations performed before the throw). -/
def click (b : MineBoard) (x y : Int) (rj : Nat → Nat) :
    MineBoard × Except ClickError ClickResult :=
  if isVaildPosition b.width b.height x y = false then (b, .error .outOfBounds)
  else
    let ib := initFieldB b x y rj
    if ib.2 = false then (ib.1, .error .missingSlot)
    else
      match getSlot ib.1.slots (x, y) with
      | none => (ib.1, .error .missingSlot)
      | some sl =>
        let b2 := if sl.hasMine then { ib.1 with state := GameState.dead } else ib.1
        if b2.state ≠ GameState.playing then (b2, .ok { state := b2.state, reveals := [] })
        else
          match touchingNoMine b2.width b2.height b2.slots x y with
          | .error e => (b2, .error (ClickError.ofFlood e))
          | .ok ps =>
            let rl := revealLoop b2.slots b2.revealCount ps []
            let b3 := { b2 with slots := rl.1, revealCount := rl.2.1 }
            if rl.2.2.2 = false then (b3, .error .missingSlot)
            else
              let b4 :=
                if b3.revealCount = b3.width * b3.height - b3.mineCount then
                  { b3 with state := GameState.win }
                else b3
              (b4, .ok { state := b4.state, reveals := rl.2.2.1 })

namespace P0

/-- The `MineBoard` class of `src/unnamed/part_000`: no `mineCount`, a
`totalSpaceCount` of mine-free cells instead; the `randomer` predicate is a
constructor argument in the source and is passed as an explicit parameter to
the operations here so that boards stay comparable data. -/
structure Board where
  slots : Slots
  revealCount : Int
  totalSpaceCount : Int
  state : GameState
  width : Int
  height : Int
  fieldInited : Bool
deriving DecidableEq, Repr

/-- The `part_000` constructor: metadata only, nothing validated. -/
def mkBoard (w h : Int) : Board :=
  { slots := [], revealCount := 0, totalSpaceCount := 0, state := .playing,
    width := w, height := h, fieldInited := false }

/-- `initField(x, y)` of `part_000`: a no-op once `fieldInited` is set;
otherwise every grid position (outer `i < width`, inner `j < height`) gets a
slot — mine-free at the clicked position, `randomer(i, j)` elsewhere —
`totalSpaceCount` counts the mine-free slots, and the second loop pair is
`initNearbyMine`. -/
def initField (b : Board) (x y : Int) (randomer : Int → Int → Bool) : Board × Bool :=
  if b.fieldInited then (b, true)
  else
    let clickPosition : Pos := (x, y)
    let built := (gridXOuter b.width b.height).foldl
      (fun (acc : Slots × Int) p =>
        let hasMine := if p = clickPosition then false else randomer p.1 p.2
        (setSlot acc.1 p (MineSlot.new hasMine),
         if hasMine then acc.2 else acc.2 + 1))
      (b.slots, b.totalSpaceCount)
    let nb := initNearbyMine b.width b.height built.1
    ({ b with slots := nb.1, totalSpaceCount := built.2, fieldInited := true }, nb.2)

/-- `click(x, y)` of `part_000`; identical to the `main.ts` click except for
the initialisation and the win test `revealCount === totalSpaceCount`. -/
def click (b : Board) (x y : Int) (randomer : Int → Int → Bool) :
    Board × Except ClickError ClickResult :=
  if isVaildPosition b.width b.height x y = false then (b, .error .outOfBounds)
  else
    let ib := initField b x y randomer
    if ib.2 = false then (ib.1, .error .missingSlot)
    else
      match getSlot ib.1.slots (x, y) with
      | none => (ib.1, .error .missingSlot)
      | some sl =>
        let b2 := if sl.hasMine then { ib.1 with state := GameState.dead } else ib.1
        if b2.state ≠ GameState.playing then (b2, .ok { state := b2.state, reveals := [] })
        else
          match touchingNoMine b2.width b2.height b2.slots x y with
          | .error e => (b2, .error (ClickError.ofFlood e))
          | .ok ps =>
            let rl := revealLoop b2.slots b2.revealCount ps []
            let b3 := { b2 with slots := rl.1, revealCount := rl.2.1 }
            if rl.2.2.2 = false then (b3, .error .missingSlot)
            else
              let b4 :=
                if b3.revealCount = b3.totalSpaceCount then { b3 with state := GameState.win }
                else b3
              (b4, .ok { state := b4.state, reveals := rl.2.2.1 })

end P0

/-- The blank token used by the concrete layouts below. -/
def uTok : String := "_"

/-- Folding a sequence of clicks over a board (used to build concrete game
positions; the result is the board after the clicks, JS exception semantics
included). -/
def runClicks (b : MineBoard) (l : List (Int × Int)) (rj : Nat → Nat) : MineBoard :=
  l.foldl (fun bb p => (click bb p.1 p.2 rj).1) b

/-- Following the claim's words for C10: the total number of mine tokens
anywhere in the layout. -/
def xTokenTotal (rows : List (List String)) : Nat :=
  (rows.map (fun row => row.countP (fun t => t == xTok))).sum

/-- Following the spec's words: the 8 Moore offsets `dx, dy ∈ {-1,0,1}`
excluding `(0,0)`. -/
def specMooreOffsets : List (Int × Int) :=
  [(-1, -1), (-1, 0), (-1, 1), (0, -1), (0, 1), (1, -1), (1, 0), (1, 1)]

/-- Following the spec's words: the number of in-bounds Moore neighbours of
`(i, j)` whose cell has a mine. -/
def specNeighborMineCount (w h : Int) (s : Slots) (i j : Int) : Nat :=
  specMooreOffsets.countP (fun d =>
    decide (0 ≤ i + d.1 ∧ i + d.1 < w ∧ 0 ≤ j + d.2 ∧ j + d.2 < h)
      && ((getSlot s (i + d.1, j + d.2)).map (fun sl => sl.hasMine)).getD false)

/-- The grid positions as a finite set (used for the flood-fill termination
measure). -/
def gridFinset (w h : Int) : Finset Pos :=
  ((Finset.range w.toNat) ×ˢ (Finset.range h.toNat)).image
    (fun (q : Nat × Nat) => (((q.1 : Int), (q.2 : Int)) : Pos))

/-- A slot map holding a slot exactly at the grid positions, the shape every
completed initialisation produces. -/
def fullDomain (w h : Int) (s : Slots) : Prop :=
  ∀ p : Pos, (getSlot s p).isSome = true ↔ (0 ≤ p.1 ∧ p.1 < w ∧ 0 ≤ p.2 ∧ p.2 < h)

/-- The termination measure of the flood-fill loop: grid cells not yet seen
count double, plus the pending stack length. -/
def floodMeasure (w h : Int) (result stack : List Pos) : Nat :=
  2 * ((gridFinset w h) \ (result.toFinset ∪ stack.toFinset)).card + stack.length

/-- The number of slots whose reveal flag is set (the number of distinct
revealed cells when the keys are distinct). -/
def revealedSlotCount (b : MineBoard) : Nat :=
  b.slots.countP (fun e => e.2.reveal)

/-! ### Basic lemmas about the slot map -/

theorem getSlot_nil (p : Pos) : getSlot [] p = none := rfl

theorem getSlot_cons (e : Pos × MineSlot) (s : Slots) (p : Pos) :
    getSlot (e :: s) p = if e.1 = p then some e.2 else getSlot s p := by
  by_cases h : e.1 = p
  · rw [getSlot, List.find?_cons_of_pos _ (by simp [h])]
    simp [h]
  · rw [getSlot, List.find?_cons_of_neg _ (by simp [h]), if_neg h]
    rfl

theorem getSlot_setSlot_self (s : Slots) (p : Pos) (v : MineSlot) :
    getSlot (setSlot s p v) p = some v := by
  unfold setSlot
  by_cases hmem : s.any (fun e => e.1 == p)
  · simp only [hmem, if_true]
    induction s with
    | nil => simp at hmem
    | cons e s ih =>
      simp only [List.any_cons, Bool.or_eq_true, beq_iff_eq] at hmem
      by_cases h : e.1 = p
      · simp [getSlot_cons, h, List.map_cons]
      · have hmem' : s.any (fun e => e.1 == p) := by
          rcases hmem with h1 | h2
          · exact absurd h1 h
          · exact h2
        simpa [List.map_cons, h, getSlot_cons] using ih hmem'
  · simp only [hmem, if_false]
    induction s with
    | nil => simp [getSlot_cons]
    | cons e s ih =>
      simp only [List.any_cons, Bool.or_eq_true, beq_iff_eq, not_or] at hmem
      have h1 : ¬ e.1 = p := hmem.1
      have h2 : ¬ s.any (fun e => e.1 == p) := by
        simpa using hmem.2
      simpa [List.cons_append, getSlot_cons, h1] using ih h2

theorem getSlot_map_replace (s : Slots) (p q : Pos) (v : MineSlot) (h : q ≠ p) :
    getSlot (s.map (fun e => if e.1 = p then (p, v) else e)) q = getSlot s q := by
  induction s with
  | nil => rfl
  | cons e s ih =>
    by_cases he : e.1 = p
    · simp [List.map_cons, he, getSlot_cons, Ne.symm h, ih]
    · by_cases heq : e.1 = q <;> simp [List.map_cons, he, getSlot_cons, heq, ih, h]

theorem getSlot_append_single (s : Slots) (p q : Pos) (v : MineSlot) (h : q ≠ p) :
    getSlot (s ++ [(p, v)]) q = getSlot s q := by
  induction s with
  | nil => simp [getSlot_cons, Ne.symm h, getSlot_nil]
  | cons e s ih =>
    by_cases heq : e.1 = q <;> simp [List.cons_append, getSlot_cons, heq, ih]

theorem getSlot_setSlot_ne (s : Slots) (p q : Pos) (v : MineSlot) (h : q ≠ p) :
    getSlot (setSlot s p v) q = getSlot s q := by
  unfold setSlot
  by_cases hmem : s.any (fun e => e.1 == p)
  · simpa [hmem] using getSlot_map_replace s p q v h
  · simpa [hmem] using getSlot_append_single s p q v h

theorem getSlot_setSlot (s : Slots) (p q : Pos) (v : MineSlot) :
    getSlot (setSlot s p v) q = if q = p then some v else getSlot s q := by
  by_cases h : q = p
  · subst h; simp [getSlot_setSlot_self]
  · simp [h, getSlot_setSlot_ne s p q v h]

/-- A fold that writes a key-determined value at each key of `l`. -/
theorem getSlot_foldl_set (f : Pos → MineSlot) (l : List Pos) (s0 : Slots) (p : Pos) :
    getSlot (l.foldl (fun s q => setSlot s q (f q)) s0) p
      = if p ∈ l then some (f p) else getSlot s0 p := by
  induction l generalizing s0 with
  | nil => simp
  | cons q l ih =>
    simp only [List.foldl_cons, ih, List.mem_cons]
    by_cases hl : p ∈ l
    · simp [hl]
    · by_cases hq : p = q
      · simp [hl, hq, getSlot_setSlot_self]
      · simp [hl, hq, getSlot_setSlot_ne s0 q p (f q) hq]

theorem isSome_getSlot_setSlot (s : Slots) (p q : Pos) (v : MineSlot)
    (hq : (getSlot s q).isSome = true) :
    (getSlot (setSlot s p v) q).isSome = true := by
  rw [getSlot_setSlot]
  by_cases h : q = p <;> simp [h, hq]

/-! ### Views of a slot map and congruence of the neighbour count -/

/-- The mine-flag view of a slot map. -/
def hmView (s : Slots) (p : Pos) : Option Bool :=
  (getSlot s p).map (fun sl => sl.hasMine)

/-- The mine-flag and neighbour-count view of a slot map. -/
def hnView (s : Slots) (p : Pos) : Option (Bool × Nat) :=
  (getSlot s p).map (fun sl => (sl.hasMine, sl.nearbyMine))

theorem hmView_of_hnView (s1 s2 : Slots) (h : ∀ q : Pos, hnView s1 q = hnView s2 q) (q : Pos) :
    hmView s1 q = hmView s2 q := by
  have hq := h q
  unfold hnView at hq
  unfold hmView
  cases h1 : getSlot s1 q <;> cases h2 : getSlot s2 q <;> simp [h1, h2] at hq ⊢
  · exact hq.1

theorem nearByMine_congr (s1 s2 : Slots) (i j : Int)
    (h : ∀ q : Pos, hmView s1 q = hmView s2 q) :
    nearByMine s1 i j = nearByMine s2 i j := by
  unfold nearByMine
  suffices hgen : ∀ (l : List (Int × Int)) (c : Nat),
      l.foldl (fun count d =>
        match getSlot s1 (i + d.1, j + d.2) with
        | some sl => if sl.hasMine then count + 1 else count
        | none => count) c
      = l.foldl (fun count d =>
        match getSlot s2 (i + d.1, j + d.2) with
        | some sl => if sl.hasMine then count + 1 else count
        | none => count) c by
    exact hgen deltaMap 0
  intro l
  induction l with
  | nil => intro c; rfl
  | cons d ds ih =>
    intro c
    have hv := h (i + d.1, j + d.2)
    unfold hmView at hv
    simp only [List.foldl_cons]
    cases h1 : getSlot s1 (i + d.1, j + d.2) <;> cases h2 : getSlot s2 (i + d.1, j + d.2) <;>
      simp [h1, h2] at hv ⊢
    · exact ih _
    · rw [hv]; exact ih _

/-! ### The `initNearbyMine` loop -/

theorem initNearbyLoop_hmView (s : Slots) (l : List Pos) (q : Pos) :
    hmView (initNearbyLoop s l).1 q = hmView s q := by
  induction l generalizing s with
  | nil => rfl
  | cons p ps ih =>
    unfold initNearbyLoop
    cases hp : getSlot s p with
    | none => rfl
    | some sl =>
      rw [ih]
      unfold hmView
      rw [getSlot_setSlot]
      by_cases h : q = p
      · subst h; simp [hp]
      · simp [h]

theorem initNearbyLoop_isSome (s : Slots) (l : List Pos) (q : Pos) :
    (getSlot (initNearbyLoop s l).1 q).isSome = (getSlot s q).isSome := by
  have h := initNearbyLoop_hmView s l q
  unfold hmView at h
  cases h1 : getSlot (initNearbyLoop s l).1 q <;> cases h2 : getSlot s q <;>
    simp [h1, h2] at h ⊢

theorem initNearbyLoop_snd (s : Slots) (l : List Pos)
    (hall : ∀ p ∈ l, (getSlot s p).isSome = true) :
    (initNearbyLoop s l).2 = true := by
  induction l generalizing s with
  | nil => rfl
  | cons p ps ih =>
    unfold initNearbyLoop
    cases hp : getSlot s p with
    | none =>
      have := hall p (List.mem_cons_self p ps)
      rw [hp] at this
      simp at this
    | some sl =>
      exact ih _ (fun q hq => isSome_getSlot_setSlot _ _ _ _ (hall q (List.mem_cons_of_mem p hq)))

theorem initNearbyLoop_not_mem (s : Slots) (l : List Pos) (q : Pos) (hq : q ∉ l) :
    getSlot (initNearbyLoop s l).1 q = getSlot s q := by
  induction l generalizing s with
  | nil => rfl
  | cons p ps ih =>
    unfold initNearbyLoop
    cases hp : getSlot s p with
    | none => rfl
    | some sl =>
      have hqp : q ≠ p := fun h => hq (h ▸ List.mem_cons_self p ps)
      have hqs : q ∉ ps := fun h => hq (List.mem_cons_of_mem p h)
      rw [ih _ hqs, getSlot_setSlot_ne _ _ _ _ hqp]

theorem initNearbyLoop_mem (s : Slots) (l : List Pos) (hnd : l.Nodup)
    (hall : ∀ p ∈ l, (getSlot s p).isSome = true) :
    ∀ p ∈ l, (getSlot (initNearbyLoop s l).1 p).map (fun sl => sl.nearbyMine)
      = some (nearByMine s p.1 p.2) := by
  induction l generalizing s with
  | nil => intro p hp; simp at hp
  | cons p ps ih =>
    intro q hq
    have hp : (getSlot s p).isSome = true := hall p (List.mem_cons_self p ps)
    cases hps : getSlot s p with
    | none => simp [hps] at hp
    | some sl =>
      unfold initNearbyLoop
      rw [hps]
      rcases List.mem_cons.mp hq with hq1 | hq2
      · subst hq1
        have hnm : q ∉ ps := (List.nodup_cons.mp hnd).1
        rw [initNearbyLoop_not_mem _ _ _ hnm, getSlot_setSlot_self]
        rfl
      · have hnd' : ps.Nodup := (List.nodup_cons.mp hnd).2
        have hall' : ∀ r ∈ ps, (getSlot (setSlot s p { sl with nearbyMine := nearByMine s p.1 p.2 }) r).isSome = true :=
          fun r hr => isSome_getSlot_setSlot _ _ _ _ (hall r (List.mem_cons_of_mem p hr))
        have := ih _ hnd' hall' q hq2
        rw [this]
        have hcongr : nearByMine (setSlot s p { sl with nearbyMine := nearByMine s p.1 p.2 }) q.1 q.2
            = nearByMine s q.1 q.2 := by
          apply nearByMine_congr
          intro r
          unfold hmView
          rw [getSlot_setSlot]
          by_cases h : r = p
          · subst h; simp [hps]
          · simp [h]
        rw [hcongr]

/-! ### The reveal loop of `click` -/

theorem revealLoop_hnView (l : List Pos) (s : Slots) (rc : Int) (acc : List RevealEvent) (q : Pos) :
    hnView (revealLoop s rc l acc).1 q = hnView s q := by
  induction l generalizing s rc acc with
  | nil => rfl
  | cons p ps ih =>
    unfold revealLoop
    cases hp : getSlot s p with
    | none => rfl
    | some sl =>
      rw [ih]
      unfold hnView
      rw [getSlot_setSlot]
      by_cases h : q = p
      · subst h; simp [hp]
      · simp [h]

theorem revealLoop_isSome (l : List Pos) (s : Slots) (rc : Int) (acc : List RevealEvent) (q : Pos) :
    (getSlot (revealLoop s rc l acc).1 q).isSome = (getSlot s q).isSome := by
  have h := revealLoop_hnView l s rc acc q
  unfold hnView at h
  cases h1 : getSlot (revealLoop s rc l acc).1 q <;> cases h2 : getSlot s q <;>
    simp [h1, h2] at h ⊢

theorem revealLoop_ok (l : List Pos) (s : Slots) (rc : Int) (acc : List RevealEvent)
    (hall : ∀ p ∈ l, (getSlot s p).isSome = true) :
    (revealLoop s rc l acc).2.2.2 = true
      ∧ (revealLoop s rc l acc).2.1 = rc + (l.length : Int)
      ∧ ∃ evs, (revealLoop s rc l acc).2.2.1 = acc ++ evs
          ∧ evs.map (fun e => e.position) = l := by
  induction l generalizing s rc acc with
  | nil => exact ⟨rfl, by simp [revealLoop], [], by simp [revealLoop], rfl⟩
  | cons p ps ih =>
    have hp : (getSlot s p).isSome = true := hall p (List.mem_cons_self p ps)
    cases hps : getSlot s p with
    | none => simp [hps] at hp
    | some sl =>
      unfold revealLoop
      rw [hps]
      have hall' : ∀ q ∈ ps, (getSlot (setSlot s p { sl with reveal := true }) q).isSome = true :=
        fun q hq => isSome_getSlot_setSlot _ _ _ _ (hall q (List.mem_cons_of_mem p hq))
      obtain ⟨h1, h2, evs, h3, h4⟩ := ih _ _ _ hall'
      refine ⟨h1, ?_, { position := p, nearbyMine := sl.nearbyMine } :: evs, ?_, ?_⟩
      · rw [h2]; simp only [List.length_cons]; push_cast; ring
      · rw [h3]; simp
      · simp [h4]

/-! ### Scalar fields through initialisation and click -/

theorem initFieldB_inited (b : MineBoard) (x y : Int) (rj : Nat → Nat)
    (h : b.fieldInited = true) : initFieldB b x y rj = (b, true) := by
  simp [initFieldB, h]

theorem initFieldB_scalars (b : MineBoard) (x y : Int) (rj : Nat → Nat) :
    (initFieldB b x y rj).1.width = b.width ∧ (initFieldB b x y rj).1.height = b.height
      ∧ (initFieldB b x y rj).1.mineCount = b.mineCount
      ∧ (initFieldB b x y rj).1.state = b.state
      ∧ (initFieldB b x y rj).1.revealCount = b.revealCount
      ∧ (initFieldB b x y rj).1.fieldInited = true := by
  by_cases h : b.fieldInited <;> simp [initFieldB, h]

/-- Generic projection of a build-fold that carries a counter next to the
slot map. -/
theorem foldl_pair_fst (g : Pos → MineSlot) (step : Pos → Int → Int) (l : List Pos)
    (s0 : Slots) (c0 : Int) :
    (l.foldl (fun (acc : Slots × Int) p => (setSlot acc.1 p (g p), step p acc.2)) (s0, c0)).1
      = l.foldl (fun s p => setSlot s p (g p)) s0 := by
  induction l generalizing s0 c0 with
  | nil => rfl
  | cons p ps ih => exact ih _ _

theorem isVaild_iff (w h x y : Int) :
    isVaildPosition w h x y = true ↔ 0 ≤ x ∧ x < w ∧ 0 ≤ y ∧ y < h := by
  simp [isVaildPosition]
  omega

theorem mem_gridXOuter (w h : Int) (p : Pos) :
    p ∈ gridXOuter w h ↔ 0 ≤ p.1 ∧ p.1 < w ∧ 0 ≤ p.2 ∧ p.2 < h := by
  simp only [gridXOuter, List.mem_flatMap, List.mem_map, List.mem_range]
  constructor
  · rintro ⟨i, hi, j, hj, rfl⟩
    simp only []
    refine ⟨?_, ?_, ?_, ?_⟩ <;> omega
  · rintro ⟨h1, h2, h3, h4⟩
    refine ⟨p.1.toNat, by omega, p.2.toNat, by omega, ?_⟩
    obtain ⟨a, b⟩ := p
    simp only [Prod.mk.injEq]
    constructor <;> omega

theorem mem_gridYOuter (w h : Int) (p : Pos) :
    p ∈ gridYOuter w h ↔ 0 ≤ p.1 ∧ p.1 < w ∧ 0 ≤ p.2 ∧ p.2 < h := by
  simp only [gridYOuter, List.mem_flatMap, List.mem_map, List.mem_range]
  constructor
  · rintro ⟨j, hj, i, hi, rfl⟩
    simp only []
    refine ⟨?_, ?_, ?_, ?_⟩ <;> omega
  · rintro ⟨h1, h2, h3, h4⟩
    refine ⟨p.2.toNat, by omega, p.1.toNat, by omega, ?_⟩
    obtain ⟨a, b⟩ := p
    simp only [Prod.mk.injEq]
    constructor <;> omega

theorem nodup_gridXOuter (w h : Int) : (gridXOuter w h).Nodup := by
  unfold gridXOuter
  rw [List.nodup_flatMap]
  constructor
  · intro i _
    exact (List.nodup_range _).map (fun a b hab => by
      have := congrArg Prod.snd hab
      simpa using this)
  · refine List.Pairwise.imp ?_ (List.nodup_range w.toNat)
    intro a b hab
    intro q hqa hqb
    simp only [List.mem_map] at hqa hqb
    obtain ⟨ja, _, rfl⟩ := hqa
    obtain ⟨jb, _, h2⟩ := hqb
    have := congrArg Prod.fst h2
    simp at this
    exact hab (by omega)

/-! ### Click preserves the mine flags and neighbour counts -/

theorem click_slots_hnView (b : MineBoard) (x y : Int) (rj : Nat → Nat) (q : Pos)
    (h : b.fieldInited = true) :
    hnView (click b x y rj).1.slots q = hnView b.slots q := by
  unfold click
  cases hv : isVaildPosition b.width b.height x y with
  | false => simp [hv]
  | true =>
    simp only [hv, initFieldB_inited b x y rj h]
    cases hs : getSlot b.slots (x, y) with
    | none => simp
    | some sl =>
      by_cases hm : sl.hasMine = true
      · simp [hm, hs]
      · by_cases hst : b.state = GameState.playing
        · cases hf : touchingNoMine b.width b.height b.slots x y with
          | error e => simp [hm, hs, hst, hf]
          | ok ps =>
            by_cases hr : (revealLoop b.slots b.revealCount ps []).2.2.2 = false
            · simp [hm, hs, hst, hf, hr, revealLoop_hnView]
            · by_cases hw : (revealLoop b.slots b.revealCount ps []).2.1
                  = b.width * b.height - b.mineCount <;>
                simp [hm, hs, hst, hf, hr, hw, revealLoop_hnView]
        · simp [hm, hs, hst]

/-! ### The clicked cell after lazy initialisation -/

theorem buildFoldP0_fst (r : Int → Int → Bool) (c : Pos) (l : List Pos) (s0 : Slots) (c0 : Int) :
    (l.foldl (fun (acc : Slots × Int) p =>
        (setSlot acc.1 p (MineSlot.new (if p = c then false else r p.1 p.2)),
         if (if p = c then false else r p.1 p.2) then acc.2 else acc.2 + 1)) (s0, c0)).1
      = l.foldl (fun s p => setSlot s p (MineSlot.new (if p = c then false else r p.1 p.2))) s0 := by
  induction l generalizing s0 c0 with
  | nil => rfl
  | cons p ps ih => exact ih _ _

theorem P0.initField_safe (b : P0.Board) (x y : Int) (r : Int → Int → Bool)
    (hnot : b.fieldInited = false) (hv : isVaildPosition b.width b.height x y = true) :
    hmView (P0.initField b x y r).1.slots (x, y) = some false := by
  unfold P0.initField
  simp only [hnot, Bool.false_eq_true, if_false, initNearbyMine]
  rw [initNearbyLoop_hmView, buildFoldP0_fst]
  unfold hmView
  rw [getSlot_foldl_set]
  rw [if_pos ((mem_gridXOuter b.width b.height (x, y)).mpr (by
    obtain ⟨h1, h2, h3, h4⟩ := (isVaild_iff b.width b.height x y).mp hv
    exact ⟨h1, h2, h3, h4⟩))]
  simp [MineSlot.new]

theorem listSwap_length (l : List Pos) (i j : Nat) : (listSwap l i j).length = l.length := by
  unfold listSwap
  cases hi : l.get? i <;> cases hj : l.get? j <;> simp [List.length_set]

theorem fyLoop_length (rj : Nat → Nat) (l : List Pos) (n : Nat) :
    (fyLoop rj l n).length = l.length := by
  induction n generalizing l with
  | zero => rfl
  | succ k ih => rw [fyLoop, ih, listSwap_length]

theorem fyShuffle_length (rj : Nat → Nat) (l : List Pos) :
    (fyShuffle rj l).length = l.length :=
  fyLoop_length rj l (l.length - 1)

theorem genPositions_length (w h : Int) : (genPositions w h).length = (w * h).toNat := by
  simp [genPositions]

theorem nodup_genPositions_sq (w : Int) : (genPositions w w).Nodup := by
  unfold genPositions
  refine List.Nodup.map ?_ (List.nodup_range _)
  intro a b hab
  have h1 : (a : Int) / w = (b : Int) / w := congrArg Prod.fst hab
  have h2 : (a : Int) % w = (b : Int) % w := congrArg Prod.snd hab
  have : (a : Int) = (b : Int) :=
    calc (a : Int) = w * ((a : Int) / w) + (a : Int) % w := (Int.ediv_add_emod _ _).symm
    _ = w * ((b : Int) / w) + (b : Int) % w := by rw [h1, h2]
    _ = (b : Int) := Int.ediv_add_emod _ _
  exact_mod_cast this

theorem countP_beq_le_one (l : List Pos) (a : Pos) (hnd : l.Nodup) :
    List.countP (fun p => p == a) l ≤ 1 := by
  induction l with
  | nil => simp
  | cons q l ih =>
    rw [List.countP_cons]
    by_cases hqa : q = a
    · subst hqa
      have hnot : q ∉ l := (List.nodup_cons.mp hnd).1
      have hz : List.countP (fun p => p == q) l = 0 := by
        rw [List.countP_eq_zero]
        intro p hp
        simp only [beq_iff_eq]
        exact fun h => hnot (h ▸ hp)
      simp [hz]
    · have := ih (List.nodup_cons.mp hnd).2
      simp only [beq_iff_eq, hqa, if_false]
      simpa using this

theorem length_filter_ne_ge (l : List Pos) (a : Pos) (hnd : l.Nodup) :
    l.length ≤ (l.filter (fun p => p != a)).length + 1 := by
  have hsplit := List.length_eq_countP_add_countP (fun p : Pos => p != a) l
  have hflt := List.countP_eq_length_filter (fun p : Pos => p != a) l
  have hcnt : List.countP (fun p : Pos => decide ¬(p != a) = true) l
      = List.countP (fun p => p == a) l := by
    apply List.countP_congr
    intro p _
    simp [bne]
  have hle := countP_beq_le_one l a hnd
  omega

/-- The slot the clicked position holds right after a numeric-mode lazy
initialisation: the clicked position is appended last, so its slot's mine
flag compares the shuffled-candidate count with `mineCount`. -/
theorem initFieldB_clicked (b : MineBoard) (x y : Int) (rj : Nat → Nat)
    (hnot : b.fieldInited = false) :
    hmView (initFieldB b x y rj).1.slots (x, y)
      = some (decide
          (((fyShuffle rj ((genPositions b.width b.height).filter
              (fun p => p != (x, y)))).length : Int) < b.mineCount)) := by
  unfold initFieldB
  simp only [hnot, Bool.false_eq_true, if_false, initNearbyMine]
  rw [initNearbyLoop_hmView]
  rw [List.enum_append, List.foldl_append]
  simp only [List.enumFrom, List.foldl_cons, List.foldl_nil]
  unfold hmView
  rw [getSlot_setSlot_self]
  simp [MineSlot.new, fyShuffle_length]

theorem revealLoop_hmView (l : List Pos) (s : Slots) (rc : Int) (acc : List RevealEvent) (q : Pos) :
    hmView (revealLoop s rc l acc).1 q = hmView s q :=
  hmView_of_hnView _ _ (fun r => revealLoop_hnView l s rc acc r) q

theorem P0.click_safe (w h x y : Int) (r : Int → Int → Bool)
    (hv : isVaildPosition w h x y = true) :
    hmView (P0.click (P0.mkBoard w h) x y r).1.slots (x, y) = some false := by
  have hsafe : hmView (P0.initField (P0.mkBoard w h) x y r).1.slots (x, y) = some false :=
    P0.initField_safe (P0.mkBoard w h) x y r rfl hv
  unfold P0.click
  rw [show (P0.mkBoard w h).width = w from rfl, show (P0.mkBoard w h).height = h from rfl, hv]
  simp only [Bool.true_eq_false, if_false]
  cases hib2 : (P0.initField (P0.mkBoard w h) x y r).2 with
  | false => simpa [hib2] using hsafe
  | true =>
    cases hs : getSlot (P0.initField (P0.mkBoard w h) x y r).1.slots (x, y) with
    | none => rw [hmView, hs] at hsafe; simp at hsafe
    | some sl =>
      have hm : sl.hasMine = false := by
        rw [hmView, hs] at hsafe
        simpa using hsafe
      by_cases hst : (P0.initField (P0.mkBoard w h) x y r).1.state = GameState.playing
      · cases hf : touchingNoMine (P0.initField (P0.mkBoard w h) x y r).1.width
            (P0.initField (P0.mkBoard w h) x y r).1.height
            (P0.initField (P0.mkBoard w h) x y r).1.slots x y with
        | error e => simpa [hib2, hs, hm, hst, hf] using hsafe
        | ok ps =>
          by_cases hr : (revealLoop (P0.initField (P0.mkBoard w h) x y r).1.slots
              (P0.initField (P0.mkBoard w h) x y r).1.revealCount ps []).2.2.2 = false
          · simpa [hib2, hs, hm, hst, hf, hr, revealLoop_hmView] using hsafe
          · by_cases hw2 : (revealLoop (P0.initField (P0.mkBoard w h) x y r).1.slots
                (P0.initField (P0.mkBoard w h) x y r).1.revealCount ps []).2.1
                  = (P0.initField (P0.mkBoard w h) x y r).1.totalSpaceCount <;>
              simpa [hib2, hs, hm, hst, hf, hr, hw2, revealLoop_hmView] using hsafe
      · simpa [hib2, hs, hm, hst] using hsafe

theorem initFieldB_clicked_safe_sq (w mc x y : Int) (rj : Nat → Nat) (b0 : MineBoard)
    (hok : mkNumericBoard w w mc = .ok b0)
    (hv : isVaildPosition b0.width b0.height x y = true) :
    hmView (initFieldB b0 x y rj).1.slots (x, y) = some false := by
  rw [mkNumericBoard] at hok
  by_cases hnc : mc ≥ w * w
  · simp [hnc] at hok
  · simp only [hnc, if_false] at hok
    injection hok with hok2
    subst hok2
    rw [initFieldB_clicked _ x y rj rfl]
    have hv' : isVaildPosition w w x y = true := hv
    have hwpos : 0 < w := by
      obtain ⟨h1, h2, _, _⟩ := (isVaild_iff w w x y).mp hv'
      omega
    have hnd := nodup_genPositions_sq w
    have hlen := length_filter_ne_ge (genPositions w w) (x, y) hnd
    rw [genPositions_length] at hlen
    rw [fyShuffle_length]
    simp only [Option.some.injEq]
    rw [decide_eq_false_iff_not]
    omega

theorem click_numeric_safe_sq (w mc x y : Int) (rj : Nat → Nat) (b0 : MineBoard)
    (hok : mkNumericBoard w w mc = .ok b0)
    (hv : isVaildPosition b0.width b0.height x y = true) :
    hmView (click b0 x y rj).1.slots (x, y) = some false := by
  have hsafe := initFieldB_clicked_safe_sq w mc x y rj b0 hok hv
  unfold click
  rw [hv]
  simp only [Bool.true_eq_false, if_false]
  cases hib2 : (initFieldB b0 x y rj).2 with
  | false => simpa [hib2] using hsafe
  | true =>
    cases hs : getSlot (initFieldB b0 x y rj).1.slots (x, y) with
    | none => rw [hmView, hs] at hsafe; simp at hsafe
    | some sl =>
      have hm : sl.hasMine = false := by
        rw [hmView, hs] at hsafe
        simpa using hsafe
      by_cases hst : (initFieldB b0 x y rj).1.state = GameState.playing
      · cases hf : touchingNoMine (initFieldB b0 x y rj).1.width (initFieldB b0 x y rj).1.height
            (initFieldB b0 x y rj).1.slots x y with
        | error e => simpa [hib2, hs, hm, hst, hf] using hsafe
        | ok ps =>
          by_cases hr : (revealLoop (initFieldB b0 x y rj).1.slots
              (initFieldB b0 x y rj).1.revealCount ps []).2.2.2 = false
          · simpa [hib2, hs, hm, hst, hf, hr, revealLoop_hmView] using hsafe
          · by_cases hw2 : (revealLoop (initFieldB b0 x y rj).1.slots
                (initFieldB b0 x y rj).1.revealCount ps []).2.1
                  = (initFieldB b0 x y rj).1.width * (initFieldB b0 x y rj).1.height
                    - (initFieldB b0 x y rj).1.mineCount <;>
              simpa [hib2, hs, hm, hst, hf, hr, hw2, revealLoop_hmView] using hsafe
      · simpa [hib2, hs, hm, hst] using hsafe

/-! ### The string-layout constructor -/

theorem buildFoldLayout_fst (rows : List (List String)) (l : List Pos) (s0 : Slots) (c0 : Int) :
    (l.foldl (fun (acc : Slots × Int) p =>
        (setSlot acc.1 p (MineSlot.new (layoutHasMine rows p)),
         if layoutHasMine rows p then acc.2 + 1 else acc.2)) (s0, c0)).1
      = l.foldl (fun s p => setSlot s p (MineSlot.new (layoutHasMine rows p))) s0 := by
  induction l generalizing s0 c0 with
  | nil => rfl
  | cons p ps ih => exact ih _ _

theorem buildFoldLayout_snd (rows : List (List String)) (l : List Pos) (s0 : Slots) (c0 : Int) :
    (l.foldl (fun (acc : Slots × Int) p =>
        (setSlot acc.1 p (MineSlot.new (layoutHasMine rows p)),
         if layoutHasMine rows p then acc.2 + 1 else acc.2)) (s0, c0)).2
      = c0 + (l.countP (fun p => layoutHasMine rows p) : Int) := by
  induction l generalizing s0 c0 with
  | nil => simp
  | cons p ps ih =>
    rw [List.foldl_cons, ih, List.countP_cons]
    by_cases hm : layoutHasMine rows p <;> simp [hm] <;> push_cast <;> ring_nf

theorem mkLayoutBoard_built_getSlot (rows : List (List String)) (p : Pos) :
    getSlot ((gridYOuter ((rows.headD []).length : Int) (rows.length : Int)).foldl
        (fun s q => setSlot s q (MineSlot.new (layoutHasMine rows q))) []) p
      = if p ∈ gridYOuter ((rows.headD []).length : Int) (rows.length : Int)
          then some (MineSlot.new (layoutHasMine rows p)) else none := by
  rw [getSlot_foldl_set, getSlot_nil]

theorem mkLayoutBoard_flag (w h : Int) (rows : List (List String)) :
    (mkLayoutBoard w h rows).2 = true := by
  unfold mkLayoutBoard
  simp only [initNearbyMine]
  rw [buildFoldLayout_fst]
  apply initNearbyLoop_snd
  intro p hp
  rw [mkLayoutBoard_built_getSlot]
  rw [if_pos ((mem_gridYOuter _ _ p).mpr ((mem_gridXOuter _ _ p).mp hp))]
  rfl

theorem mkLayoutBoard_domain (w h : Int) (rows : List (List String)) :
    fullDomain ((rows.headD []).length : Int) (rows.length : Int)
      (mkLayoutBoard w h rows).1.slots := by
  intro p
  unfold mkLayoutBoard
  simp only [initNearbyMine]
  rw [buildFoldLayout_fst]
  rw [initNearbyLoop_isSome, mkLayoutBoard_built_getSlot]
  by_cases hp : p ∈ gridYOuter ((rows.headD []).length : Int) (rows.length : Int)
  · rw [if_pos hp]
    simp only [Option.isSome_some, true_iff]
    exact (mem_gridYOuter _ _ p).mp hp
  · rw [if_neg hp]
    simp only [Option.isSome_none, Bool.false_eq_true, false_iff]
    intro hb
    exact hp ((mem_gridYOuter _ _ p).mpr hb)

theorem mkLayoutBoard_scalars (w h : Int) (rows : List (List String)) :
    (mkLayoutBoard w h rows).1.width = ((rows.headD []).length : Int)
      ∧ (mkLayoutBoard w h rows).1.height = (rows.length : Int)
      ∧ (mkLayoutBoard w h rows).1.fieldInited = true
      ∧ (mkLayoutBoard w h rows).1.state = GameState.playing
      ∧ (mkLayoutBoard w h rows).1.revealCount = 0
      ∧ (mkLayoutBoard w h rows).1.mineCount
          = ((gridYOuter ((rows.headD []).length : Int) (rows.length : Int)).countP
              (fun p => layoutHasMine rows p) : Int) := by
  refine ⟨rfl, rfl, rfl, rfl, rfl, ?_⟩
  unfold mkLayoutBoard
  simp only
  rw [buildFoldLayout_snd]
  simp

/-! ### Claim theorems -/

/-- C5 counterexample: constructing a board with the negative mine count `-1`
does not fail — the numeric constructor only rejects `mineCount ≥
width*height`, so a board is produced, contradicting the claim that any
`mineCount` outside `[0, width*height)` fails. -/
theorem invalid_config_counterexample :
    mkNumericBoard 2 2 (-1)
      = .ok { slots := [], mineCount := -1, state := .playing, revealCount := 0,
              width := 2, height := 2, fieldInited := false } := by decide

/-- C5 (amended): numeric construction fails (with the only construction
error) if and only if `width*height ≤ mineCount`; every other mine count —
negative ones included — produces the uninitialised board. -/
theorem invalid_config_amended (w h mc : Int) :
    (mkNumericBoard w h mc = .error .tooManyMines ↔ w * h ≤ mc)
      ∧ (¬ w * h ≤ mc → mkNumericBoard w h mc
          = .ok { slots := [], mineCount := mc, state := .playing, revealCount := 0,
                  width := w, height := h, fieldInited := false }) := by
  unfold mkNumericBoard
  constructor
  · by_cases hc : w * h ≤ mc
    · rw [if_pos (by omega : mc ≥ w * h)]
      simp [hc]
    · rw [if_neg (by omega : ¬ mc ≥ w * h)]
      constructor
      · intro hcon; cases hcon
      · intro hcon; exact absurd hcon hc
  · intro hc
    rw [if_neg (by omega : ¬ mc ≥ w * h)]

/-- C5 witness: the amended theorem applied at `w = h = 2`, `mc = -1`. -/
theorem invalid_config_amended_witness :
    mkNumericBoard 2 2 (-1)
      = .ok { slots := [], mineCount := -1, state := .playing, revealCount := 0,
              width := 2, height := 2, fieldInited := false } :=
  (invalid_config_amended 2 2 (-1)).2 (by decide)

/-- C6: a click at coordinates with `x < 0`, `x ≥ width`, `y < 0` or
`y ≥ height` fails with the out-of-bounds error before any initialisation or
mutation: the returned board is the argument board itself. -/
theorem out_of_bounds_click (b : MineBoard) (x y : Int) (rj : Nat → Nat)
    (h : x < 0 ∨ x ≥ b.width ∨ y < 0 ∨ y ≥ b.height) :
    click b x y rj = (b, .error .outOfBounds) := by
  have hv : isVaildPosition b.width b.height x y = false := by
    simp [isVaildPosition]
    omega
  unfold click
  rw [hv]
  simp

/-- C6 witness: clicking `(5, 0)` on an uninitialised 1×1 board. -/
theorem out_of_bounds_click_witness :
    click { slots := [], mineCount := 0, state := .playing, revealCount := 0,
            width := 1, height := 1, fieldInited := false } 5 0 (fun _ => 0)
      = ({ slots := [], mineCount := 0, state := .playing, revealCount := 0,
           width := 1, height := 1, fieldInited := false }, .error .outOfBounds) :=
  out_of_bounds_click _ 5 0 (fun _ => 0) (by right; left; decide)

/-- C3 counterexample: in fixed-layout mode the clicked cell keeps the
layout's mine.  On the 1×1 layout whose sole token is the mine token, the
first click leaves `hasMine = true` and the board dies, contradicting the
claim for the fixed-layout construction mode. -/
theorem safe_first_click_counterexample :
    hmView (click (mkLayoutBoard 5 5 [[xTok]]).1 0 0 (fun _ => 0)).1.slots (0, 0) = some true
      ∧ (click (mkLayoutBoard 5 5 [[xTok]]).1 0 0 (fun _ => 0)).2
          = .ok { state := GameState.dead, reveals := [] } := by decide

/-- C3 (amended): the safe-first-click guarantee holds for the predicate
construction mode (`part_000`, any board size) and for the numeric mode of
`main.ts` on square boards (the non-square numeric case crashes before the
click completes, C4); in fixed-layout mode the layout alone decides the
clicked cell's mine. -/
theorem safe_first_click_amended :
    (∀ (w h x y : Int) (r : Int → Int → Bool), isVaildPosition w h x y = true →
        hmView (P0.click (P0.mkBoard w h) x y r).1.slots (x, y) = some false)
    ∧ (∀ (w mc x y : Int) (rj : Nat → Nat) (b0 : MineBoard),
        mkNumericBoard w w mc = .ok b0 →
        isVaildPosition b0.width b0.height x y = true →
        hmView (click b0 x y rj).1.slots (x, y) = some false) :=
  ⟨fun w h x y r hv => P0.click_safe w h x y r hv,
   fun w mc x y rj b0 hok hv => click_numeric_safe_sq w mc x y rj b0 hok hv⟩

/-- C3 witness: a fully mined predicate board — the first click is still
safe. -/
theorem safe_first_click_amended_witness :
    hmView (P0.click (P0.mkBoard 2 2) 0 0 (fun _ _ => true)).1.slots (0, 0) = some false :=
  safe_first_click_amended.1 2 2 0 0 (fun _ _ => true) (by decide)

/-- C4: the code is wrong for non-square boards.  On the 2×3 board with 0
mines (a valid configuration), the candidate keys `(⌊i/width⌋, i mod height)`
create a slot at the out-of-grid position `(2, 2)` while the grid cells
`(1, 1)` and `(0, 2)` get no slot, and the first click crashes in
`initNearbyMine` reading the missing slot (shown for the identity draw; the
key set is the same for every draw). -/
theorem nonsquare_initfield_bug :
    (mkNumericBoard 2 3 0).toOption.map (fun b =>
      ((click b 0 0 (fun _ => 0)).2,
       (getSlot (click b 0 0 (fun _ => 0)).1.slots (2, 2)).isSome,
       (getSlot (click b 0 0 (fun _ => 0)).1.slots (1, 1)).isSome,
       (getSlot (click b 0 0 (fun _ => 0)).1.slots (0, 2)).isSome))
      = some (.error .missingSlot, true, false, false) := by decide

/-- C10 counterexample: on the ragged layout `[_ _ / x x x]` (string form
`"_ _\nx x x"`), the constructor counts only the tokens inside the
`width × height` grid — `mineCount = 2` — while the layout holds 3 mine
tokens. -/
theorem layout_mine_count_counterexample :
    (mkLayoutBoard 5 5 [[uTok, uTok], [xTok, xTok, xTok]]).1.mineCount = 2
      ∧ xTokenTotal [[uTok, uTok], [xTok, xTok, xTok]] = 3 := by decide

/-- C10 (amended): a layout-constructed board takes `width` from the first
row's token count and `height` from the row count, ignoring the constructor
arguments; `mineCount` counts the mine tokens at grid positions `x < width`,
`y < height` (equal to the layout's total mine-token count exactly for
rectangular layouts); the board is fully initialised at construction
(`initNearbyMine` succeeds) and the first click triggers no lazy
initialisation. -/
theorem layout_constructor_amended (w h : Int) (rows : List (List String)) :
    (mkLayoutBoard w h rows).2 = true
      ∧ (mkLayoutBoard w h rows).1.width = ((rows.headD []).length : Int)
      ∧ (mkLayoutBoard w h rows).1.height = (rows.length : Int)
      ∧ (mkLayoutBoard w h rows).1.fieldInited = true
      ∧ (mkLayoutBoard w h rows).1.mineCount
          = ((gridYOuter ((rows.headD []).length : Int) (rows.length : Int)).countP
              (fun p => layoutHasMine rows p) : Int)
      ∧ (∀ (x y : Int) (rj : Nat → Nat),
          initFieldB (mkLayoutBoard w h rows).1 x y rj = ((mkLayoutBoard w h rows).1, true)) := by
  obtain ⟨h1, h2, h3, _, _, h6⟩ := mkLayoutBoard_scalars w h rows
  exact ⟨mkLayoutBoard_flag w h rows, h1, h2, h3, h6,
    fun x y rj => initFieldB_inited _ x y rj h3⟩

theorem MineBoard_set_state_self {s : GameState} (b : MineBoard) (h : b.state = s) :
    { b with state := s } = b := by
  cases b
  cases h
  rfl

/-- C1 counterexample: a finished board is not terminally stable.  On the
1×3 layout `[x _ _]`, clicking `(1,0)` then `(2,0)` wins the game; a further
in-bounds click on the mined cell `(0,0)` returns state `dead` (not the
terminal `win`) and flips the board's state from `win` to `dead`. -/
theorem terminal_state_counterexample :
    ((runClicks (mkLayoutBoard 5 5 [[xTok, uTok, uTok]]).1 [(1, 0), (2, 0)] (fun _ => 0)).state
        = GameState.win)
    ∧ ((click (runClicks (mkLayoutBoard 5 5 [[xTok, uTok, uTok]]).1 [(1, 0), (2, 0)] (fun _ => 0))
          0 0 (fun _ => 0)).2
        = .ok { state := GameState.dead, reveals := [] })
    ∧ ((click (runClicks (mkLayoutBoard 5 5 [[xTok, uTok, uTok]]).1 [(1, 0), (2, 0)] (fun _ => 0))
          0 0 (fun _ => 0)).1.state = GameState.dead) := by decide

/-- C1 (amended): on an initialised board whose clicked position holds a
slot, a dead board is terminally stable (same state, empty reveals, board
unchanged); a won board returns empty reveals and mutates no slot and no
counter, but stays `win` only when the clicked cell is mine-free — clicking
a mined cell turns the state to `dead`. -/
theorem terminal_state_amended (b : MineBoard) (x y : Int) (rj : Nat → Nat) (sl : MineSlot)
    (hin : b.fieldInited = true)
    (hv : isVaildPosition b.width b.height x y = true)
    (hs : getSlot b.slots (x, y) = some sl) :
    (b.state = GameState.dead →
        click b x y rj = (b, .ok { state := GameState.dead, reveals := [] }))
    ∧ (b.state = GameState.win → sl.hasMine = false →
        click b x y rj = (b, .ok { state := GameState.win, reveals := [] }))
    ∧ (b.state = GameState.win → sl.hasMine = true →
        click b x y rj = ({ b with state := GameState.dead },
          .ok { state := GameState.dead, reveals := [] })) := by
  unfold click
  rw [hv, initFieldB_inited b x y rj hin]
  simp only [Bool.true_eq_false, if_false, hs]
  refine ⟨?_, ?_, ?_⟩
  · intro hst
    by_cases hm : sl.hasMine = true
    · rw [if_pos hm, MineBoard_set_state_self b hst]
      simp [hst]
    · rw [if_neg hm]
      simp [hst]
  · intro hst hm
    simp only [hm, Bool.false_eq_true, if_false]
    simp [hst]
  · intro hst hm
    rw [if_pos hm]
    simp [hst]

/-- C1 witness: the amended theorem applied to a won 1×1 board whose cell is
mined — the further click yields `dead` with empty reveals and only the
state changes. -/
theorem terminal_state_amended_witness :
    click { slots := [((0, 0), { hasMine := true, nearbyMine := 0, reveal := false })],
            mineCount := 1, state := GameState.win, revealCount := 0,
            width := 1, height := 1, fieldInited := true } 0 0 (fun _ => 0)
      = ({ slots := [((0, 0), { hasMine := true, nearbyMine := 0, reveal := false })],
           mineCount := 1, state := GameState.dead, revealCount := 0,
           width := 1, height := 1, fieldInited := true },
         .ok { state := GameState.dead, reveals := [] }) :=
  (terminal_state_amended _ 0 0 (fun _ => 0)
      { hasMine := true, nearbyMine := 0, reveal := false }
      rfl (by decide) (by decide)).2.2 rfl rfl

/-- C2 counterexample: the win test is about the (double-counting)
`revealedCount`, not about all non-mine cells being revealed.  On the 1×3
layout `[x _ _]`, clicking the numbered cell `(1,0)` twice reaches
`revealCount = 2 = width*height - mineCount` and the state becomes `win`
while the mine-free cell `(2,0)` was never revealed. -/
theorem win_condition_counterexample :
    ((runClicks (mkLayoutBoard 5 5 [[xTok, uTok, uTok]]).1 [(1, 0), (1, 0)] (fun _ => 0)).state
        = GameState.win)
    ∧ ((getSlot (runClicks (mkLayoutBoard 5 5 [[xTok, uTok, uTok]]).1 [(1, 0), (1, 0)]
          (fun _ => 0)).slots (2, 0)).map (fun sl => (sl.hasMine, sl.reveal))
        = some (false, false)) := by decide

/-- C2 (amended): for a click on a playing board that does not die, the
returned state is `win` exactly when the updated `revealedCount` equals
`width*height - mineCount`; by the counterexample this equality is not the
same as all non-mine cells being revealed, since re-clicks double-count. -/
theorem win_condition_amended (b : MineBoard) (x y : Int) (rj : Nat → Nat)
    (b' : MineBoard) (r : ClickResult)
    (hst : b.state = GameState.playing)
    (hclick : click b x y rj = (b', .ok r))
    (hnd : r.state ≠ GameState.dead) :
    r.state = b'.state
      ∧ (r.state = GameState.win ↔ b'.revealCount = b'.width * b'.height - b'.mineCount) := by
  obtain ⟨hw1, hh1, hmc1, hst1, hrc1, hfi1⟩ := initFieldB_scalars b x y rj
  unfold click at hclick
  cases hv : isVaildPosition b.width b.height x y with
  | false => rw [hv] at hclick; simp at hclick
  | true =>
    rw [hv] at hclick
    simp only [Bool.true_eq_false, if_false] at hclick
    cases hib2 : (initFieldB b x y rj).2 with
    | false => rw [hib2] at hclick; simp at hclick
    | true =>
      rw [hib2] at hclick
      simp only [Bool.true_eq_false, if_false] at hclick
      cases hgs : getSlot (initFieldB b x y rj).1.slots (x, y) with
      | none => rw [hgs] at hclick; simp at hclick
      | some sl =>
        rw [hgs] at hclick
        simp only at hclick
        by_cases hm : sl.hasMine = true
        · rw [if_pos hm] at hclick
          have hd : ({ (initFieldB b x y rj).1 with state := GameState.dead }).state
              ≠ GameState.playing := by simp
          rw [if_pos hd] at hclick
          simp only [Prod.mk.injEq] at hclick
          obtain ⟨hb', hr⟩ := hclick
          have : r = { state := GameState.dead, reveals := [] } := by
            injection hr with hr2
            exact hr2.symm
          rw [this] at hnd
          simp at hnd
        · rw [if_neg hm] at hclick
          have hp2 : ¬ ((initFieldB b x y rj).1.state ≠ GameState.playing) := by
            rw [hst1, hst]
            simp
          rw [if_neg hp2] at hclick
          cases hf : touchingNoMine (initFieldB b x y rj).1.width (initFieldB b x y rj).1.height
              (initFieldB b x y rj).1.slots x y with
          | error e => rw [hf] at hclick; simp at hclick
          | ok ps =>
            rw [hf] at hclick
            simp only at hclick
            by_cases hrl : (revealLoop (initFieldB b x y rj).1.slots
                (initFieldB b x y rj).1.revealCount ps []).2.2.2 = false
            · rw [if_pos hrl] at hclick
              simp at hclick
            · rw [if_neg hrl] at hclick
              by_cases hwin : (revealLoop (initFieldB b x y rj).1.slots
                  (initFieldB b x y rj).1.revealCount ps []).2.1
                    = (initFieldB b x y rj).1.width * (initFieldB b x y rj).1.height
                      - (initFieldB b x y rj).1.mineCount
              · rw [if_pos hwin] at hclick
                simp only [Prod.mk.injEq, Except.ok.injEq] at hclick
                obtain ⟨hb', hr⟩ := hclick
                rw [← hb', ← hr]
                simp [hwin]
              · rw [if_neg hwin] at hclick
                simp only [Prod.mk.injEq, Except.ok.injEq] at hclick
                obtain ⟨hb', hr⟩ := hclick
                rw [← hb', ← hr]
                refine ⟨rfl, ?_⟩
                constructor
                · intro hcon
                  simp only [] at hcon
                  rw [hst1, hst] at hcon
                  cases hcon
                · intro hcon
                  simp only [] at hcon
                  exact absurd hcon hwin

/-- C2 witness: the amended theorem applied to the first click `(1,0)` on
the 1×3 layout `[x _ _]` — one cell revealed, two safe cells in total, so
the click stays `playing` and the reveal count differs from the target. -/
theorem win_condition_amended_witness :
    ({ state := GameState.playing,
       reveals := [{ position := (1, 0), nearbyMine := 1 }] } : ClickResult).state
        = (click (mkLayoutBoard 5 5 [[xTok, uTok, uTok]]).1 1 0 (fun _ => 0)).1.state
    ∧ (({ state := GameState.playing,
          reveals := [{ position := (1, 0), nearbyMine := 1 }] } : ClickResult).state
            = GameState.win
        ↔ (click (mkLayoutBoard 5 5 [[xTok, uTok, uTok]]).1 1 0 (fun _ => 0)).1.revealCount
            = (click (mkLayoutBoard 5 5 [[xTok, uTok, uTok]]).1 1 0 (fun _ => 0)).1.width
              * (click (mkLayoutBoard 5 5 [[xTok, uTok, uTok]]).1 1 0 (fun _ => 0)).1.height
              - (click (mkLayoutBoard 5 5 [[xTok, uTok, uTok]]).1 1 0 (fun _ => 0)).1.mineCount) :=
  win_condition_amended (mkLayoutBoard 5 5 [[xTok, uTok, uTok]]).1 1 0 (fun _ => 0)
    (click (mkLayoutBoard 5 5 [[xTok, uTok, uTok]]).1 1 0 (fun _ => 0)).1
    { state := GameState.playing, reveals := [{ position := (1, 0), nearbyMine := 1 }] }
    rfl (by decide) (by decide)

/-! ### Neighbour counts versus the specification -/

theorem foldl_count_eq_countP (p : (Int × Int) → Bool) (l : List (Int × Int)) (n : Nat) :
    l.foldl (fun c d => if p d then c + 1 else c) n = n + l.countP p := by
  induction l generalizing n with
  | nil => simp
  | cons d ds ih =>
    rw [List.foldl_cons, ih, List.countP_cons]
    by_cases hd : p d <;> simp [hd] <;> omega

theorem foldl_congr_fun {α β : Type} (f g : β → α → β) (l : List α) (b : β)
    (h : ∀ acc a, f acc a = g acc a) : l.foldl f b = l.foldl g b := by
  induction l generalizing b with
  | nil => rfl
  | cons a l ih => rw [List.foldl_cons, List.foldl_cons, h, ih]

theorem nearByMine_countP (s : Slots) (i j : Int) :
    nearByMine s i j
      = deltaMap.countP
          (fun d => ((getSlot s (i + d.1, j + d.2)).map (fun sl => sl.hasMine)).getD false) := by
  unfold nearByMine
  have hbody : ∀ (c : Nat) (d : Int × Int),
      (match getSlot s (i + d.1, j + d.2) with
       | some sl => if sl.hasMine then c + 1 else c
       | none => c)
      = if ((getSlot s (i + d.1, j + d.2)).map (fun sl => sl.hasMine)).getD false
          then c + 1 else c := by
    intro c d
    cases hgd : getSlot s (i + d.1, j + d.2) with
    | none => simp [hgd]
    | some sl => cases hm : sl.hasMine <;> simp [hgd, hm]
  calc deltaMap.foldl (fun count d =>
          match getSlot s (i + d.1, j + d.2) with
          | some sl => if sl.hasMine then count + 1 else count
          | none => count) 0
      = deltaMap.foldl (fun c d =>
          if ((getSlot s (i + d.1, j + d.2)).map (fun sl => sl.hasMine)).getD false
            then c + 1 else c) 0 := by
        exact foldl_congr_fun _ _ deltaMap 0 hbody
    _ = deltaMap.countP
          (fun d => ((getSlot s (i + d.1, j + d.2)).map (fun sl => sl.hasMine)).getD false) := by
        rw [foldl_count_eq_countP]
        omega

theorem nearByMine_eq_spec (w h : Int) (s : Slots) (hdom : fullDomain w h s) (i j : Int) :
    nearByMine s i j = specNeighborMineCount w h s i j := by
  rw [nearByMine_countP]
  unfold specNeighborMineCount
  have hperm : deltaMap.Perm specMooreOffsets := by decide
  rw [hperm.countP_eq]
  apply List.countP_congr
  intro d _
  cases hgd : getSlot s (i + d.1, j + d.2) with
  | none =>
    have hnb : ¬ (0 ≤ i + d.1 ∧ i + d.1 < w ∧ 0 ≤ j + d.2 ∧ j + d.2 < h) := by
      intro hb
      have := (hdom (i + d.1, j + d.2)).mpr hb
      rw [hgd] at this
      cases this
    simp [hgd, hnb]
  | some sl =>
    have hb : 0 ≤ i + d.1 ∧ i + d.1 < w ∧ 0 ≤ j + d.2 ∧ j + d.2 < h := by
      apply (hdom (i + d.1, j + d.2)).mp
      rw [hgd]
      rfl
    simp [hgd, hb]

/-- C7: on a slot map holding exactly the grid cells (the shape every
completed initialisation produces), `initNearbyMine` succeeds and stores in
every grid cell exactly the spec's count — the number of in-bounds Moore
neighbours with a mine; and `click` on an initialised board never changes
any cell's `hasMine` or `nearbyMine`, so the values are computed once and
never change afterwards. -/
theorem neighbor_count_correct :
    (∀ (w h : Int) (s : Slots), fullDomain w h s →
        (initNearbyMine w h s).2 = true
        ∧ ∀ i j : Int, 0 ≤ i → i < w → 0 ≤ j → j < h →
            (getSlot (initNearbyMine w h s).1 (i, j)).map (fun sl => sl.nearbyMine)
              = some (specNeighborMineCount w h s i j))
    ∧ (∀ (b : MineBoard) (x y : Int) (rj : Nat → Nat) (p : Pos), b.fieldInited = true →
        hnView (click b x y rj).1.slots p = hnView b.slots p) := by
  constructor
  · intro w h s hdom
    have hall : ∀ p ∈ gridXOuter w h, (getSlot s p).isSome = true := by
      intro p hp
      exact (hdom p).mpr ((mem_gridXOuter w h p).mp hp)
    constructor
    · exact initNearbyLoop_snd s _ hall
    · intro i j h1 h2 h3 h4
      have hmem : ((i, j) : Pos) ∈ gridXOuter w h :=
        (mem_gridXOuter w h (i, j)).mpr ⟨h1, h2, h3, h4⟩
      have := initNearbyLoop_mem s (gridXOuter w h) (nodup_gridXOuter w h) hall (i, j) hmem
      rw [initNearbyMine, this]
      rw [nearByMine_eq_spec w h s hdom i j]
  · intro b x y rj p hin
    exact click_slots_hnView b x y rj p hin

/-- C7 witness: the 1×1 mine-free map — the stored count is the spec count
(0 in-bounds mined neighbours). -/
theorem neighbor_count_correct_witness :
    (getSlot (initNearbyMine 1 1
        [((0, 0), { hasMine := false, nearbyMine := 0, reveal := false })]).1 (0, 0)).map
        (fun sl => sl.nearbyMine)
      = some (specNeighborMineCount 1 1
          [((0, 0), { hasMine := false, nearbyMine := 0, reveal := false })] 0 0) :=
  ((neighbor_count_correct.1 1 1
      [((0, 0), { hasMine := false, nearbyMine := 0, reveal := false })] (by
    intro p
    obtain ⟨a, b⟩ := p
    rw [getSlot_cons]
    by_cases h0 : (((0 : Int), (0 : Int)) : Pos) = ((a, b) : Pos)
    · rw [if_pos h0]
      simp only [Option.isSome_some, true_iff]
      injection h0 with ha hb
      refine ⟨by omega, by omega, by omega, by omega⟩
    · rw [if_neg h0]
      simp only [getSlot_nil, Option.isSome_none, Bool.false_eq_true, false_iff]
      intro hb
      apply h0
      have ha0 : a = 0 := by omega
      have hb0 : b = 0 := by omega
      rw [ha0, hb0])).2 0 0 (by omega) (by omega) (by omega) (by omega))

/-! ### The flood-fill loop: termination measure and invariants -/

theorem mem_gridFinset (w h : Int) (p : Pos) :
    p ∈ gridFinset w h ↔ 0 ≤ p.1 ∧ p.1 < w ∧ 0 ≤ p.2 ∧ p.2 < h := by
  unfold gridFinset
  simp only [Finset.mem_image, Finset.mem_product, Finset.mem_range]
  constructor
  · rintro ⟨q, ⟨hq1, hq2⟩, rfl⟩
    refine ⟨?_, ?_, ?_, ?_⟩ <;> simp <;> omega
  · rintro ⟨h1, h2, h3, h4⟩
    refine ⟨(p.1.toNat, p.2.toNat), ⟨by omega, by omega⟩, ?_⟩
    obtain ⟨a, b⟩ := p
    simp only [Prod.mk.injEq]
    constructor <;> simp <;> omega

theorem gridFinset_card (w h : Int) : (gridFinset w h).card = w.toNat * h.toNat := by
  unfold gridFinset
  rw [Finset.card_image_of_injective]
  · simp [Finset.card_product]
  · intro a b hab
    obtain ⟨a1, a2⟩ := a
    obtain ⟨b1, b2⟩ := b
    simp only [Prod.mk.injEq] at hab ⊢
    omega

theorem floodMeasure_pop (w h : Int) (result : List Pos) (current : Pos) (rest : List Pos) :
    floodMeasure w h (result ++ [current]) rest < floodMeasure w h result (current :: rest) := by
  unfold floodMeasure
  have hU : (result ++ [current]).toFinset ∪ rest.toFinset
      = result.toFinset ∪ (current :: rest).toFinset := by
    ext q
    simp only [Finset.mem_union, List.mem_toFinset, List.mem_append, List.mem_singleton,
      List.mem_cons]
    tauto
  rw [hU]
  simp only [List.length_append, List.length_cons, List.length_singleton]
  omega

theorem floodMeasure_push (w h : Int) (result : List Pos) (current : Pos) (rest P : List Pos)
    (hPg : ∀ p ∈ P, p ∈ gridFinset w h)
    (hPnd : P.Nodup)
    (hPfresh : ∀ p ∈ P, p ∉ result ++ [current] ∧ p ∉ rest) :
    floodMeasure w h (result ++ [current]) (P ++ rest)
      < floodMeasure w h result (current :: rest) := by
  unfold floodMeasure
  have hU2 : (result ++ [current]).toFinset ∪ (P ++ rest).toFinset
      = (result.toFinset ∪ (current :: rest).toFinset) ∪ P.toFinset := by
    ext q
    simp only [Finset.mem_union, List.mem_toFinset, List.mem_append, List.mem_singleton,
      List.mem_cons]
    tauto
  rw [hU2]
  have hsd : gridFinset w h \ ((result.toFinset ∪ (current :: rest).toFinset) ∪ P.toFinset)
      = (gridFinset w h \ (result.toFinset ∪ (current :: rest).toFinset)) \ P.toFinset := by
    ext q
    simp only [Finset.mem_sdiff, Finset.mem_union]
    tauto
  rw [hsd]
  have hsub : P.toFinset ⊆ gridFinset w h \ (result.toFinset ∪ (current :: rest).toFinset) := by
    intro q hq
    rw [List.mem_toFinset] at hq
    rw [Finset.mem_sdiff]
    refine ⟨hPg q hq, ?_⟩
    simp only [Finset.mem_union, List.mem_toFinset, List.mem_cons]
    push_neg
    obtain ⟨hq1, hq2⟩ := hPfresh q hq
    simp only [List.mem_append, List.mem_singleton] at hq1
    push_neg at hq1
    exact ⟨hq1.1, hq1.2, hq2⟩
  rw [Finset.card_sdiff hsub]
  have hPcard : P.toFinset.card = P.length := List.toFinset_card_of_nodup hPnd
  have hle : P.toFinset.card
      ≤ (gridFinset w h \ (result.toFinset ∪ (current :: rest).toFinset)).card :=
    Finset.card_le_card hsub
  simp only [List.length_append, List.length_cons, List.length_singleton]
  omega

theorem pushDeltas_ok (w h : Int) (s : Slots) (hdom : fullDomain w h s)
    (result : List Pos) (i j : Int) :
    ∀ (ds : List (Int × Int)) (stack : List Pos),
    ∃ P, pushDeltas w h s result i j ds stack = .ok (P ++ stack)
      ∧ P.Nodup
      ∧ (∀ p ∈ P, p ∈ gridFinset w h ∧ p ∉ result ∧ p ∉ stack) := by
  intro ds
  induction ds with
  | nil => exact fun stack => ⟨[], rfl, List.nodup_nil, fun p hp => absurd hp (List.not_mem_nil p)⟩
  | cons d ds ih =>
    intro stack
    cases hvp : isVaildPosition w h (d.1 + i) (d.2 + j) with
    | false =>
      obtain ⟨P, heq, hnd, hprops⟩ := ih stack
      refine ⟨P, ?_, hnd, hprops⟩
      rw [pushDeltas, hvp]
      simpa using heq
    | true =>
      have hq : ((d.1 + i, d.2 + j) : Pos) ∈ gridFinset w h := by
        rw [mem_gridFinset]
        exact (isVaild_iff w h (d.1 + i) (d.2 + j)).mp hvp
      have hqs : (getSlot s (d.1 + i, d.2 + j)).isSome = true :=
        (hdom (d.1 + i, d.2 + j)).mpr ((mem_gridFinset w h _).mp hq)
      cases hgs : getSlot s (d.1 + i, d.2 + j) with
      | none => rw [hgs] at hqs; cases hqs
      | some sl =>
        have hstep : pushDeltas w h s result i j (d :: ds) stack
            = if (sl.hasMine || sl.reveal || result.contains (d.1 + i, d.2 + j)
                || stack.contains (d.1 + i, d.2 + j)) = true
              then pushDeltas w h s result i j ds stack
              else pushDeltas w h s result i j ds ((d.1 + i, d.2 + j) :: stack) := by
          rw [pushDeltas, hvp]
          simp only [Bool.true_eq_false, if_false, hgs]
        by_cases hc : (sl.hasMine || sl.reveal
            || result.contains (d.1 + i, d.2 + j) || stack.contains (d.1 + i, d.2 + j)) = true
        · obtain ⟨P, heq, hnd, hprops⟩ := ih stack
          refine ⟨P, ?_, hnd, hprops⟩
          rw [hstep, if_pos hc]
          exact heq
        · obtain ⟨P, heq, hnd, hprops⟩ := ih ((d.1 + i, d.2 + j) :: stack)
          simp only [Bool.or_eq_true, not_or, Bool.not_eq_true] at hc
          obtain ⟨⟨⟨hm, hr⟩, hcr⟩, hcs⟩ := hc
          have hnres : ((d.1 + i, d.2 + j) : Pos) ∉ result := by
            intro hmem
            have := List.elem_iff.mpr hmem
            rw [show result.contains (d.1 + i, d.2 + j) = List.elem (d.1 + i, d.2 + j) result
              from rfl, this] at hcr
            cases hcr
          have hnstk : ((d.1 + i, d.2 + j) : Pos) ∉ stack := by
            intro hmem
            have := List.elem_iff.mpr hmem
            rw [show stack.contains (d.1 + i, d.2 + j) = List.elem (d.1 + i, d.2 + j) stack
              from rfl, this] at hcs
            cases hcs
          refine ⟨P ++ [(d.1 + i, d.2 + j)], ?_, ?_, ?_⟩
          · rw [hstep, if_neg (by simp [hm, hr, hcr, hcs, hnres, hnstk])]
            rw [List.append_assoc]
            simpa using heq
          · rw [List.nodup_append]
            refine ⟨hnd, List.nodup_singleton _, ?_⟩
            intro p hp
            have := (hprops p hp).2.2
            simp only [List.mem_cons, not_or] at this
            simp [this.1]
          · intro p hp
            rcases List.mem_append.mp hp with hp1 | hp1
            · obtain ⟨hg, hres, hstk⟩ := hprops p hp1
              simp only [List.mem_cons, not_or] at hstk
              exact ⟨hg, hres, hstk.2⟩
            · rw [List.mem_singleton] at hp1
              subst hp1
              exact ⟨hq, hnres, hnstk⟩

theorem touchingLoop_ok (w h : Int) (s : Slots) (hdom : fullDomain w h s) :
    ∀ (fuel : Nat) (result stack : List Pos),
    (∀ p ∈ stack, p ∈ gridFinset w h) →
    result.Nodup → stack.Nodup → (∀ p ∈ stack, p ∉ result) →
    floodMeasure w h result stack < fuel →
    ∃ out, touchingLoop w h s fuel result stack = .ok out
      ∧ out.Nodup
      ∧ (∀ p ∈ result, p ∈ out)
      ∧ (∀ p ∈ stack, p ∈ out)
      ∧ (∀ p ∈ out, p ∈ result ∨ p ∈ gridFinset w h) := by
  intro fuel
  induction fuel with
  | zero => intro result stack _ _ _ _ hm; omega
  | succ fuel ih =>
    intro result stack hsg hrnd hsnd hdisj hm
    cases stack with
    | nil =>
      exact ⟨result, rfl, hrnd, fun p hp => hp, fun p hp => absurd hp (List.not_mem_nil p),
        fun p hp => Or.inl hp⟩
    | cons current rest =>
      have hcg : current ∈ gridFinset w h := hsg current (List.mem_cons_self _ _)
      have hcs : (getSlot s current).isSome = true :=
        (hdom current).mpr ((mem_gridFinset w h current).mp hcg)
      cases hgc : getSlot s current with
      | none => rw [hgc] at hcs; cases hcs
      | some sl =>
        have hcur_not_res : current ∉ result := hdisj current (List.mem_cons_self _ _)
        have hcur_not_rest : current ∉ rest := (List.nodup_cons.mp hsnd).1
        have hrnd' : (result ++ [current]).Nodup := by
          rw [List.nodup_append]
          refine ⟨hrnd, List.nodup_singleton _, ?_⟩
          intro p hp
          simp only [List.mem_singleton]
          intro hpc
          exact hcur_not_res (hpc ▸ hp)
        have hsnd' : rest.Nodup := (List.nodup_cons.mp hsnd).2
        have hdisj' : ∀ p ∈ rest, p ∉ result ++ [current] := by
          intro p hp
          simp only [List.mem_append, List.mem_singleton]
          push_neg
          exact ⟨hdisj p (List.mem_cons_of_mem _ hp),
            fun heq => hcur_not_rest (heq ▸ hp)⟩
        have hsg' : ∀ p ∈ rest, p ∈ gridFinset w h :=
          fun p hp => hsg p (List.mem_cons_of_mem _ hp)
        by_cases hnb : sl.nearbyMine > 0
        · have hstep : touchingLoop w h s (fuel + 1) result (current :: rest)
              = touchingLoop w h s fuel (result ++ [current]) rest := by
            rw [touchingLoop, hgc]
            simp only [hnb, if_pos]
          have hm' : floodMeasure w h (result ++ [current]) rest < fuel := by
            have := floodMeasure_pop w h result current rest
            omega
          obtain ⟨out, heq, hnd, hmono, hstk, hsub⟩ :=
            ih (result ++ [current]) rest hsg' hrnd' hsnd' hdisj' hm'
          refine ⟨out, hstep ▸ heq, hnd, ?_, ?_, ?_⟩
          · intro p hp
            exact hmono p (by simp [hp])
          · intro p hp
            rcases List.mem_cons.mp hp with hp1 | hp1
            · exact hp1 ▸ hmono current (by simp)
            · exact hstk p hp1
          · intro p hp
            rcases hsub p hp with hin | hin
            · rcases List.mem_append.mp hin with h1 | h1
              · exact Or.inl h1
              · rw [List.mem_singleton] at h1
                exact Or.inr (h1 ▸ hcg)
            · exact Or.inr hin
        · obtain ⟨P, hpeq, hPnd, hPprops⟩ :=
            pushDeltas_ok w h s hdom (result ++ [current]) current.1 current.2 deltaMap rest
          have hstep : touchingLoop w h s (fuel + 1) result (current :: rest)
              = touchingLoop w h s fuel (result ++ [current]) (P ++ rest) := by
            rw [touchingLoop, hgc]
            simp [hnb, hpeq]
          have hsg'' : ∀ p ∈ P ++ rest, p ∈ gridFinset w h := by
            intro p hp
            rcases List.mem_append.mp hp with h1 | h1
            · exact (hPprops p h1).1
            · exact hsg' p h1
          have hsnd'' : (P ++ rest).Nodup := by
            rw [List.nodup_append]
            refine ⟨hPnd, hsnd', ?_⟩
            intro p hp
            exact (hPprops p hp).2.2
          have hdisj'' : ∀ p ∈ P ++ rest, p ∉ result ++ [current] := by
            intro p hp
            rcases List.mem_append.mp hp with h1 | h1
            · exact (hPprops p h1).2.1
            · exact hdisj' p h1
          have hm' : floodMeasure w h (result ++ [current]) (P ++ rest) < fuel := by
            have := floodMeasure_push w h result current rest P
              (fun p hp => (hPprops p hp).1) hPnd
              (fun p hp => ⟨(hPprops p hp).2.1, (hPprops p hp).2.2⟩)
            omega
          obtain ⟨out, heq, hnd, hmono, hstk, hsub⟩ :=
            ih (result ++ [current]) (P ++ rest) hsg'' hrnd' hsnd'' hdisj'' hm'
          refine ⟨out, hstep ▸ heq, hnd, ?_, ?_, ?_⟩
          · intro p hp
            exact hmono p (by simp [hp])
          · intro p hp
            rcases List.mem_cons.mp hp with hp1 | hp1
            · exact hp1 ▸ hmono current (by simp)
            · exact hstk p (List.mem_append.mpr (Or.inr hp1))
          · intro p hp
            rcases hsub p hp with hin | hin
            · rcases List.mem_append.mp hin with h1 | h1
              · exact Or.inl h1
              · rw [List.mem_singleton] at h1
                exact Or.inr (h1 ▸ hcg)
            · exact Or.inr hin

theorem touchingNoMine_ok (w h : Int) (s : Slots) (hdom : fullDomain w h s) (ox oy : Int)
    (hv : isVaildPosition w h ox oy = true) (hsafe : hmView s (ox, oy) = some false) :
    ∃ out, touchingNoMine w h s ox oy = .ok out ∧ out.Nodup
      ∧ (ox, oy) ∈ out ∧ (∀ p ∈ out, p ∈ gridFinset w h) := by
  have hb := (isVaild_iff w h ox oy).mp hv
  have hg : ((ox, oy) : Pos) ∈ gridFinset w h := (mem_gridFinset w h _).mpr hb
  have hcs : (getSlot s (ox, oy)).isSome = true := (hdom (ox, oy)).mpr hb
  cases hgs : getSlot s (ox, oy) with
  | none => rw [hgs] at hcs; cases hcs
  | some sl =>
    have hmine : sl.hasMine = false := by
      rw [hmView, hgs] at hsafe
      simpa using hsafe
    have hmeasure : floodMeasure w h [] [(ox, oy)] < 2 * (w.toNat * h.toNat) + 1 := by
      unfold floodMeasure
      have hcard : (gridFinset w h \ (([] : List Pos).toFinset ∪ [((ox, oy) : Pos)].toFinset)).card
          < (gridFinset w h).card := by
        apply Finset.card_lt_card
        constructor
        · exact Finset.sdiff_subset
        · intro hsup
          have := hsup hg
          rw [Finset.mem_sdiff] at this
          simp at this
      rw [gridFinset_card] at hcard
      simp only [List.length_singleton]
      omega
    obtain ⟨out, heq, hnd, _, hstk, hsub⟩ := touchingLoop_ok w h s hdom
      (2 * (w.toNat * h.toNat) + 1) [] [(ox, oy)]
      (by intro p hp; rw [List.mem_singleton] at hp; exact hp ▸ hg)
      List.nodup_nil (List.nodup_singleton _)
      (by intro p _; exact List.not_mem_nil p)
      hmeasure
    refine ⟨out, ?_, hnd, hstk (ox, oy) (List.mem_singleton_self _), ?_⟩
    · rw [touchingNoMine, hgs]
      simp only [hmine, Bool.false_eq_true, if_false]
      exact heq
    · intro p hp
      rcases hsub p hp with h1 | h1
      · exact absurd h1 (List.not_mem_nil p)
      · exact h1

theorem click_playing_spec (b : MineBoard) (x y : Int) (rj : Nat → Nat) (sl : MineSlot)
    (hdom : fullDomain b.width b.height b.slots)
    (hin : b.fieldInited = true)
    (hst : b.state = GameState.playing)
    (hv : isVaildPosition b.width b.height x y = true)
    (hgs : getSlot b.slots (x, y) = some sl)
    (hmine : sl.hasMine = false) :
    ∃ out r b', touchingNoMine b.width b.height b.slots x y = .ok out
      ∧ click b x y rj = (b', .ok r)
      ∧ r.reveals.map (fun e => e.position) = out
      ∧ (x, y) ∈ out ∧ out.Nodup
      ∧ b'.revealCount = b.revealCount + (out.length : Int) := by
  have hsafe : hmView b.slots (x, y) = some false := by
    rw [hmView, hgs]
    simp [hmine]
  obtain ⟨out, hflood, hnd, hmem, hgrid⟩ :=
    touchingNoMine_ok b.width b.height b.slots hdom x y hv hsafe
  have hall : ∀ p ∈ out, (getSlot b.slots p).isSome = true := by
    intro p hp
    exact (hdom p).mpr ((mem_gridFinset _ _ p).mp (hgrid p hp))
  obtain ⟨hflag, hcount, evs, hevs, hpos⟩ := revealLoop_ok out b.slots b.revealCount [] hall
  have hflag' : ¬ ((revealLoop b.slots b.revealCount out []).2.2.2 = false) := by
    rw [hflag]
    simp
  unfold click
  rw [hv]
  simp only [Bool.true_eq_false, if_false, initFieldB_inited b x y rj hin, hgs]
  simp only [hmine, Bool.false_eq_true, if_false]
  rw [if_neg (by rw [hst]; simp)]
  rw [hflood]
  simp only []
  rw [if_neg hflag']
  by_cases hwin : (revealLoop b.slots b.revealCount out []).2.1
      = b.width * b.height - b.mineCount
  · rw [if_pos hwin]
    refine ⟨out, _, _, rfl, rfl, ?_, hmem, hnd, ?_⟩
    · simp only [hevs]
      simpa using hpos
    · simp only [hcount]
  · rw [if_neg hwin]
    refine ⟨out, _, _, rfl, rfl, ?_, hmem, hnd, ?_⟩
    · simp only [hevs]
      simpa using hpos
    · simp only [hcount]

/-- C8: on a fully initialised board, the flood fill started by a click on a
safe cell terminates with an `ok` result (the fuel of the embedding is never
exhausted), the result — and hence the returned reveal list of the click —
lists each position exactly once, and a popped cell with `nearbyMine > 0`
recurses with the pending stack unchanged: it is revealed but contributes no
neighbour to the frontier. -/
theorem flood_fill_props (b : MineBoard) (x y : Int)
    (hdom : fullDomain b.width b.height b.slots)
    (hv : isVaildPosition b.width b.height x y = true)
    (hsafe : hmView b.slots (x, y) = some false) :
    (∃ out, touchingNoMine b.width b.height b.slots x y = .ok out ∧ out.Nodup)
    ∧ (∀ rj : Nat → Nat, b.fieldInited = true → b.state = GameState.playing →
        ∃ b' r, click b x y rj = (b', .ok r)
          ∧ (r.reveals.map (fun e => e.position)).Nodup)
    ∧ (∀ (fuel : Nat) (result rest : List Pos) (current : Pos) (sl : MineSlot),
        getSlot b.slots current = some sl → sl.nearbyMine > 0 →
        touchingLoop b.width b.height b.slots (fuel + 1) result (current :: rest)
          = touchingLoop b.width b.height b.slots fuel (result ++ [current]) rest) := by
  refine ⟨?_, ?_, ?_⟩
  · obtain ⟨out, heq, hnd, _, _⟩ := touchingNoMine_ok b.width b.height b.slots hdom x y hv hsafe
    exact ⟨out, heq, hnd⟩
  · intro rj hin hst
    cases hgs : getSlot b.slots (x, y) with
    | none => rw [hmView, hgs] at hsafe; cases hsafe
    | some sl =>
      have hmine : sl.hasMine = false := by
        rw [hmView, hgs] at hsafe
        simpa using hsafe
      obtain ⟨out, r, b', _, hclick, hmap, _, hnd, _⟩ :=
        click_playing_spec b x y rj sl hdom hin hst hv hgs hmine
      exact ⟨b', r, hclick, hmap ▸ hnd⟩
  · intro fuel result rest current sl hgs hnb
    rw [touchingLoop, hgs]
    simp [hnb]

/-- C8 witness: the flood fill of the mine-free 1×1 layout board. -/
theorem flood_fill_props_witness :
    ∃ out, touchingNoMine (mkLayoutBoard 5 5 [[uTok]]).1.width
        (mkLayoutBoard 5 5 [[uTok]]).1.height
        (mkLayoutBoard 5 5 [[uTok]]).1.slots 0 0 = .ok out ∧ out.Nodup :=
  (flood_fill_props (mkLayoutBoard 5 5 [[uTok]]).1 0 0
      (mkLayoutBoard_domain 5 5 [[uTok]]) (by decide) (by decide)).1

/-- C9: while playing, a click on an already-revealed non-mine cell returns
a reveal list containing that cell again (the flood fill pushes its start
unconditionally) and adds the whole list's length to `revealedCount`, so the
counter counts that cell a second time; concretely, after clicking `(1,0)`
twice on the 1×3 layout `[x _ _]` the counter reads 2 while only one
distinct cell is revealed. -/
theorem reclick_double_count (b : MineBoard) (x y : Int) (rj : Nat → Nat) (sl : MineSlot)
    (hdom : fullDomain b.width b.height b.slots)
    (hin : b.fieldInited = true)
    (hst : b.state = GameState.playing)
    (hv : isVaildPosition b.width b.height x y = true)
    (hgs : getSlot b.slots (x, y) = some sl)
    (hrev : sl.reveal = true)
    (hmine : sl.hasMine = false) :
    (∃ b' r, click b x y rj = (b', .ok r)
      ∧ (x, y) ∈ r.reveals.map (fun e => e.position)
      ∧ 1 ≤ r.reveals.length
      ∧ b'.revealCount = b.revealCount + (r.reveals.length : Int))
    ∧ ((runClicks (mkLayoutBoard 5 5 [[xTok, uTok, uTok]]).1 [(1, 0), (1, 0)]
          (fun _ => 0)).revealCount = 2
      ∧ revealedSlotCount (runClicks (mkLayoutBoard 5 5 [[xTok, uTok, uTok]]).1 [(1, 0), (1, 0)]
          (fun _ => 0)) = 1) := by
  constructor
  · obtain ⟨out, r, b', _, hclick, hmap, hmem, _, hcount⟩ :=
      click_playing_spec b x y rj sl hdom hin hst hv hgs hmine
    have hlen : r.reveals.length = out.length := by
      have := congrArg List.length hmap
      simpa using this
    refine ⟨b', r, hclick, hmap ▸ hmem, ?_, ?_⟩
    · rw [hlen]
      exact List.length_pos_of_mem hmem
    · rw [hcount, hlen]
  · exact ⟨by decide, by decide⟩

/-- C9 witness: a 2×1 board whose safe cell `(0,0)` is already revealed —
re-clicking it succeeds, lists it again, and bumps the counter. -/
theorem reclick_double_count_witness :
    ∃ b' r, click (MineBoard.mk [((0, 0), MineSlot.mk false 1 true), ((1, 0), MineSlot.mk true 0 false)] 1 GameState.playing 1 2 1 true) 0 0 (fun _ => 0) = (b', .ok r)
      ∧ ((0 : Int), (0 : Int)) ∈ r.reveals.map (fun e => e.position)
      ∧ 1 ≤ r.reveals.length
      ∧ b'.revealCount = 1 + (r.reveals.length : Int) :=
  (reclick_double_count _ 0 0 (fun _ => 0)
      (MineSlot.mk false 1 true)
      (by
        intro p
        obtain ⟨a, b⟩ := p
        rw [getSlot_cons]
        by_cases h0 : (((0 : Int), (0 : Int)) : Pos) = ((a, b) : Pos)
        · rw [if_pos h0]
          simp only [Option.isSome_some, true_iff]
          injection h0 with ha hb
          refine ⟨by omega, by omega, by omega, by omega⟩
        · rw [if_neg h0]
          rw [getSlot_cons]
          by_cases h1 : (((1 : Int), (0 : Int)) : Pos) = ((a, b) : Pos)
          · rw [if_pos h1]
            simp only [Option.isSome_some, true_iff]
            injection h1 with ha hb
            refine ⟨by omega, by omega, by omega, by omega⟩
          · rw [if_neg h1]
            simp only [getSlot_nil, Option.isSome_none, Bool.false_eq_true, false_iff]
            intro hb
            obtain ⟨hb1, hb2, hb3, hb4⟩ := hb
            have ha0 : a = 0 ∨ a = 1 := by omega
            have hb0 : b = 0 := by omega
            rcases ha0 with ha0 | ha0
            · exact h0 (by rw [ha0, hb0])
            · exact h1 (by rw [ha0, hb0]))
      rfl rfl (by decide) (by decide) rfl rfl).1
